import Mathlib

/-!
Verification development for the flowchart-studio repository.

The embedding below models, over `List Char`, the diagram-text cleanup
pipeline of `conversationalFlowchartFlow`
(src/src/ai/flows/conversational-flowchart-flow.ts, lines 141-223), the
input validation of the same flow (lines 109-127), the basic cleanup of
`generateFlowchartFlow` (FlowchartGenerator, lines 119-138), and the chat
turn controller `handleSendMessage` of the conversational form
(src/src/components/mermaid-chart.tsx).

JavaScript string semantics are modeled on ASCII: `\s` is the ASCII
whitespace set, `\w` is `[A-Za-z0-9_]` (the regexes use no unicode flag),
and `toLowerCase` is ASCII lowering (all strings the checks compare
against are ASCII).
-/

namespace Studio

/-- The brace characters and a few others are built by code point to keep
the file free of delicate literals. -/
def obrace : Char := Char.ofNat 123

def cbrace : Char := Char.ofNat 125

def squote : Char := Char.ofNat 39

def btick : Char := Char.ofNat 96

def caret : Char := Char.ofNat 94

/-- ASCII fragment of the JavaScript `\s` class (space, tab, newline,
carriage return, vertical tab, form feed), also used by `trim()`. -/
def isWs (c : Char) : Bool :=
  c == ' ' || c == '\t' || c == '\n' || c == '\r' ||
  c == Char.ofNat 11 || c == Char.ofNat 12

/-- The JavaScript `\w` class `[A-Za-z0-9_]` (also the class
`[a-zA-Z0-9_]` used for node-identifier sanitization). -/
def isWc (c : Char) : Bool :=
  c.isAlpha || c.isDigit || c == '_'

/-- Opening bracket alternatives of the label regex. -/
def isOpenB (c : Char) : Bool :=
  c == '[' || c == '(' || c == obrace

/-- Closing bracket alternatives of the label regex. -/
def isCloseB (c : Char) : Bool :=
  c == ']' || c == ')' || c == cbrace

/-- Character class `[\]\)\}"']` of the semicolon-removal regex. -/
def isCloserQ (c : Char) : Bool :=
  c == ']' || c == ')' || c == cbrace || c == '"' || c == squote

/-- The punctuation test `[ "()[\]{};\/<>|!@#$%^&*+=`~]` that decides in
the source whether a label "needs" double quotes. -/
def isPunctQ (c : Char) : Bool :=
  c == ' ' || c == '"' || c == '(' || c == ')' || c == '[' || c == ']' ||
  c == obrace || c == cbrace || c == ';' || c == '/' || c == '<' ||
  c == '>' || c == '|' || c == '!' || c == '@' || c == '#' || c == '$' ||
  c == '%' || c == caret || c == '&' || c == '*' || c == '+' ||
  c == '=' || c == btick || c == '~'

/-- Label needs quoting per the source's test regex. -/
def needsQuoting (l : List Char) : Bool :=
  l.any isPunctQ

/-- Boolean prefix test (structural, used instead of library name-clashing
helpers). -/
def leadsWith : List Char → List Char → Bool
  | [], _ => true
  | _ :: _, [] => false
  | a :: as, b :: bs => a == b && leadsWith as bs

/-- Boolean substring occurrence test. -/
def occurs : List Char → List Char → Bool
  | p, [] => leadsWith p []
  | p, c :: t => leadsWith p (c :: t) || occurs p t

/-- ASCII lowering of a list of characters, modeling `toLowerCase` on the
ASCII strings the pipeline compares against. -/
def lowerL (s : List Char) : List Char :=
  s.map Char.toLower

/-- Strip leading whitespace, as in the first half of `trim()`. -/
def trimLeft (s : List Char) : List Char :=
  s.dropWhile isWs

/-- Strip trailing whitespace, as in `trimRight()` / `trimEnd()`. -/
def trimRight (s : List Char) : List Char :=
  (s.reverse.dropWhile isWs).reverse

/-- Full `trim()`. -/
def trimL (s : List Char) : List Char :=
  trimRight (trimLeft s)

/-- Split at newline characters, as `split('\n')` (keeps empty pieces). -/
def splitNl : List Char → List (List Char)
  | [] => [[]]
  | c :: cs =>
    if c = '\n' then [] :: splitNl cs
    else
      match splitNl cs with
      | l :: ls => (c :: l) :: ls
      | [] => [[c]]

/-- Rejoin lines with newline characters, as `join('\n')`. -/
def joinNl : List (List Char) → List Char
  | [] => []
  | [l] => l
  | l :: ls => l ++ '\n' :: joinNl ls

/-- Replace every character outside `[A-Za-z0-9_]` by an underscore, the
`id.replace(/[^a-zA-Z0-9_]/g, '_')` of the source. -/
def cleanId (s : List Char) : List Char :=
  s.map (fun c => if isWc c then c else '_')

/-- One line of the node-identifier pass, regex
`^(\s*)(\w+)(?=\[|\(|\{)` with the multiline flag (lines 161-168): at
line start, optional whitespace, then a word run that must be followed by
an opening bracket; the run is rewritten through `cleanId`. -/
def sanitizeLine (l : List Char) : List Char :=
  match ((l.dropWhile isWs).dropWhile isWc) with
  | b :: rest =>
    if !((l.dropWhile isWs).takeWhile isWc).isEmpty && isOpenB b then
      l.takeWhile isWs ++ cleanId ((l.dropWhile isWs).takeWhile isWc) ++
        b :: rest
    else l
  | [] => l

def sanitizeIds (s : List Char) : List Char :=
  joinNl ((splitNl s).map sanitizeLine)

/-- Escape every double quote with a backslash,
`label.replace(/"/g, '\\"')`. -/
def escQ : List Char → List Char
  | [] => []
  | c :: cs => if c = '"' then '\\' :: '"' :: escQ cs else c :: escQ cs

/-- Lazy part `(.*?)(\]|\)|\})` of the label regex: the label runs to the
first closing bracket, and `.` cannot cross a newline. -/
def splitLabel : List Char → Option (List Char × Char × List Char)
  | [] => none
  | c :: cs =>
    if isCloseB c then some ([], c, cs)
    else if c = '\n' then none
    else
      match splitLabel cs with
      | some (l, b, r) => some (c :: l, b, r)
      | none => none

/-- Fuel-indexed worker for the label pass; fuel at least the list length
makes the fuel branch unreachable (see `quoteLabelsF_fuel`). -/
def quoteLabelsF : Nat → List Char → List Char
  | 0, _ => []
  | _ + 1, [] => []
  | fuel + 1, c :: cs =>
    if isWc c then
      match cs.dropWhile isWc with
      | b :: rest2 =>
        if isOpenB b then
          match splitLabel rest2 with
          | some (lbl, _, rest3) =>
            cleanId (c :: cs.takeWhile isWc) ++
              '[' :: '"' :: escQ lbl ++ '"' :: ']' :: quoteLabelsF fuel rest3
          | none => (c :: cs.takeWhile isWc) ++ b :: quoteLabelsF fuel rest2
        else (c :: cs.takeWhile isWc) ++ quoteLabelsF fuel (b :: rest2)
      | [] => c :: cs.takeWhile isWc
    else c :: quoteLabelsF fuel cs

/-- Global label pass, regex `(\w+)(\[|\(|\{)(.*?)(\]|\)|\})` with
replacement rewriting every hit to `id["label"]` (lines 171-189).  The
source's first branch fires whenever the label needs quoting *or* the
captured bracket differs from a double quote; since the bracket group
only matches `[`, `(` or `{`, that branch always fires (its second
branch would produce the same text and its third is unreachable), so the
replacement is always the quoted square-bracket form with inner double
quotes escaped.  On a failed lazy part (no closer before a newline) the
engine advances past the opening bracket. -/
def quoteLabels (s : List Char) : List Char :=
  quoteLabelsF s.length s

/-- Fuel-indexed worker for the separator-removal pass. -/
def stripSemisF : Nat → List Char → List Char
  | 0, _ => []
  | _ + 1, [] => []
  | fuel + 1, c :: cs =>
    if isCloserQ c then
      match cs.dropWhile isWs with
      | d :: rest2 =>
        if d = ';' then c :: (cs.takeWhile isWs ++ stripSemisF fuel rest2)
        else c :: stripSemisF fuel cs
      | [] => c :: stripSemisF fuel cs
    else c :: stripSemisF fuel cs

/-- Separator-removal pass, regex `([\]\)\}"']\s*);` replaced by `$1`
(line 195): a separator whose first preceding non-whitespace character is
a closer or quote is deleted; scanning resumes after the deleted
separator. -/
def stripSemis (s : List Char) : List Char :=
  stripSemisF s.length s

def allWs (s : List Char) : Bool := s.all isWs

def noNl (s : List Char) : Bool := s.all (fun c => !(c == '\n'))

def closesB (b c : Char) : Bool :=
  (b == '[' && c == ']') || (b == '(' && c == ')') ||
  (b == obrace && c == cbrace)

/-- Bracket-shape alternatives `\[.*?\]|\(.*?\)|\{.*?\}` followed by
`\s*$`: under backtracking the lazy part extends to the closer whose tail
is all whitespace, with no newline inside the lazy part; equivalently the
last non-whitespace character closes the bracket and nothing before it on
the tail is a newline. -/
def bracketTail (b : Char) (y : List Char) : Bool :=
  match (trimRight y).getLast? with
  | some c => closesB b c && noNl (trimRight y).dropLast
  | none => false

/-- Disjunction of shape alternatives after the word run: either the run
splits into id and `\w+` with only whitespace after, or a bracketed tail
follows after optional whitespace, or after at least one whitespace
character a second word run is followed by whitespace only. -/
def strictTail (r rest : List Char) : Bool :=
  (decide (2 ≤ r.length) && allWs rest) ||
  (match rest.dropWhile isWs with
   | b :: y => isOpenB b && bracketTail b y
   | [] => false) ||
  (!(rest.takeWhile isWs).isEmpty &&
   !((rest.drop (rest.takeWhile isWs).length).takeWhile isWc).isEmpty &&
   allWs ((rest.drop (rest.takeWhile isWs).length).drop
     ((rest.drop (rest.takeWhile isWs).length).takeWhile isWc).length))

/-- Backtracking semantics of the "strict node definition" regex
`^\s*[a-zA-Z0-9_]+\s*(?:\[.*?\]|\(.*?\)|{.*?}|\w+)\s*$` (line 210):
optional whitespace, then a non-empty word run, then one of the
`strictTail` alternatives. -/
def isStrictNodeDef (t : List Char) : Bool :=
  if ((t.dropWhile isWs).takeWhile isWc).isEmpty then false
  else strictTail ((t.dropWhile isWs).takeWhile isWc)
    ((t.dropWhile isWs).drop ((t.dropWhile isWs).takeWhile isWc).length)

def startsPercPerc (t : List Char) : Bool := leadsWith ['%', '%'] t

def endsSemi (t : List Char) : Bool :=
  match t.getLast? with
  | some c => c == ';'
  | none => false

def edgeArrow : List Char := ['-', '-', '>']

def edgeDash : List Char := ['-', '-', '-']

def isLinkLine (t : List Char) : Bool :=
  occurs edgeArrow t || occurs edgeDash t

/-- Per-line separator termination (lines 198-220): the first line, empty
lines, comment lines and already-terminated lines are kept; a line
containing an edge token that does not match the strict-node-definition
regex is right-trimmed and given one separator; all others are kept. -/
def fixLine (first : Bool) (line : List Char) : List Char :=
  let t := trimL line
  if first || t.isEmpty || startsPercPerc t || endsSemi t then line
  else if isLinkLine t && !isStrictNodeDef t then trimRight line ++ [';']
  else line

def terminate (s : List Char) : List Char :=
  match splitNl s with
  | [] => []
  | l :: ls => joinNl (fixLine true l :: ls.map (fixLine false))

def mermaidTag : List Char := ['m', 'e', 'r', 'm', 'a', 'i', 'd']

def fence : List Char := [btick, btick, btick]

/-- Strip a leading code fence, regex `^```(?:mermaid)?\s*` with the
case-insensitive flag (line 144). -/
def stripLeadFence (s : List Char) : List Char :=
  if leadsWith fence s then
    let s1 := s.drop 3
    let s2 := if lowerL (s1.take 7) = mermaidTag then s1.drop 7 else s1
    s2.dropWhile isWs
  else s

/-- Strip a trailing code fence, regex `\s*```$` (line 145): applies only
when the text literally ends with the fence, and also removes the
whitespace run before it. -/
def stripTrailFence (s : List Char) : List Char :=
  if leadsWith fence s.reverse then trimRight (s.reverse.drop 3).reverse
  else s

def hdrFlow : List Char := "flowchart td".data

def hdrGraph : List Char := "graph td".data

def hdrCanon : List Char := "flowchart TD".data

/-- Error message returned when the content has neither a recognized
header nor an edge token (line 157). -/
def cleanupErrMsg : List Char :=
  "I seem to have trouble generating the flowchart structure correctly. Could you perhaps rephrase the last piece of information or provide more detail?".data

def normalizeBody (s : List Char) : List Char :=
  terminate (stripSemis (quoteLabels (sanitizeIds s)))

/-- Result of the cleanup passes: either a cleaned definition or the
early error return of line 157. -/
inductive CleanResult where
  | ok (d : List Char)
  | error (e : List Char)
deriving DecidableEq

/-- The flowchart-cleanup passes of `conversationalFlowchartFlow`
(lines 141-223): trim, strip fences, establish a header (or fail with a
fixed error message when neither a recognized header nor an edge token is
present), then sanitize identifiers, quote labels, remove separators
after closers, and terminate link lines. -/
def cleanupFlowchart (raw : List Char) : CleanResult :=
  let d0 := trimL raw
  let d1 := stripLeadFence d0
  let d2 := stripTrailFence d1
  let d := trimL d2
  if leadsWith hdrFlow (lowerL d) || leadsWith hdrGraph (lowerL d) then
    CleanResult.ok (normalizeBody d)
  else if occurs edgeArrow d || occurs edgeDash d then
    CleanResult.ok (normalizeBody (hdrCanon ++ '\n' :: d))
  else CleanResult.error cleanupErrMsg

def fallbackDiagram : List Char :=
  "flowchart TD\n    error[Error Generating Flowchart]".data

/-- Leading-fence strip of `generateFlowchartFlow` (FlowchartGenerator,
line 125): regex `^```mermaid\s*`, case-sensitive, tag mandatory. -/
def stripLeadFenceGen (s : List Char) : List Char :=
  if leadsWith (fence ++ mermaidTag) s then (s.drop 10).dropWhile isWs else s

/-- The basic cleanup of `generateFlowchartFlow` (FlowchartGenerator,
lines 119-138): trim, strip fences, prepend the canonical header to a
non-empty text lacking it (case-sensitively), and return the fixed
single-error-node fallback diagram only when the text is empty. -/
def generateCleanup (s : List Char) : List Char :=
  let d0 := trimL s
  let d1 := stripLeadFenceGen d0
  let d2 := stripTrailFence d1
  let d := trimL d2
  if !d.isEmpty && !leadsWith hdrCanon d then hdrCanon ++ '\n' :: d
  else if d.isEmpty then fallbackDiagram
  else d

inductive OutType where
  | question
  | flowchart
  | error
deriving DecidableEq

/-- Reply union of the conversational flow (`ConversationOutputSchema`). -/
structure ConvOut where
  type : OutType
  content : List Char
deriving DecidableEq

/-- A conversation message as validated by the flow: the role is checked
as a raw string. -/
structure Msg where
  role : List Char
  content : List Char
deriving DecidableEq

def roleUser : List Char := "user".data

def roleAssistant : List Char := "assistant".data

def validRole (r : List Char) : Bool := r == roleUser || r == roleAssistant

def firstBadRole : List Msg → Option (List Char)
  | [] => none
  | m :: ms => if validRole m.role then firstBadRole ms else some m.role

def emptyMsgsErr : List Char :=
  "Invalid input format: Missing or empty conversation messages. Please try again.".data

def roleErr (r : List Char) : List Char :=
  "Invalid input format: Malformed message or invalid role (".data ++
    squote :: r ++ squote ::
    ") in conversation. Please try again.".data

/-- Local transcript validation of the flow (lines 109-127): an empty
message list is rejected; the first message whose role is not
user/assistant is rejected with a message naming that role.  Message
content only has to be a string; the source does not check that it is
non-empty. -/
def validateMsgs (msgs : List Msg) : Option (List Char) :=
  match msgs with
  | [] => some emptyMsgsErr
  | _ => (firstBadRole msgs).map roleErr

/-- Model of `conversationalFlowchartFlow` as a function of the prompt
collaborator `llm`: validate locally (returning a synthesized error reply
without consulting `llm`), otherwise invoke the collaborator and rewrite
a flowchart reply through the cleanup passes (which may demote it to an
error reply); question and error replies are returned as received
(lines 225-235). -/
def conversationalFlow (llm : List Msg → ConvOut) (msgs : List Msg) :
    ConvOut :=
  match validateMsgs msgs with
  | some e => ⟨OutType.error, e⟩
  | none =>
    let out := llm msgs
    match out.type with
    | OutType.flowchart =>
      match cleanupFlowchart out.content with
      | .ok d => ⟨OutType.flowchart, d⟩
      | .error m => ⟨OutType.error, m⟩
    | _ => out

/-- Client-side state of the conversational form. -/
structure ChatState where
  conversation : List Msg
  userInput : List Char
  flowchartDefinition : Option (List Char)
  isLoading : Bool
  isComplete : Bool
deriving DecidableEq

def greetingMsg : List Char :=
  "Hello! Describe the user flow you".data ++ squote ::
    "d like me to turn into a technical flowchart.".data

def ackMsg : List Char :=
  "Great! I have enough information. Here is the generated flowchart:".data

def chatErrPre : List Char := "Sorry, I encountered an error: ".data

def chatCatchMsg : List Char :=
  "Sorry, I ran into a problem processing that. Could you try rephrasing?".data

/-- Turn controller `handleSendMessage` of the conversational form
(mermaid-chart chat component): guard on empty trimmed input, the loading
flag and the completion flag; append the trimmed user message; invoke the
server flow (modeled by `collab`, with `Except.error` standing for a
thrown transport error); dispatch on the reply type.  The loading flag is
cleared in `finally`; the input box is cleared whenever the guard
passes. -/
def handleSendMessage (collab : List Msg → Except Unit ConvOut)
    (s : ChatState) : ChatState :=
  let t := trimL s.userInput
  if t.isEmpty || s.isLoading || s.isComplete then s
  else
    let conv := s.conversation ++ [⟨roleUser, t⟩]
    match collab conv with
    | .error _ =>
      { s with conversation := conv ++ [⟨roleAssistant, chatCatchMsg⟩],
               userInput := [], isLoading := false }
    | .ok out =>
      match out.type with
      | OutType.question =>
        { s with conversation := conv ++ [⟨roleAssistant, out.content⟩],
                 userInput := [], isLoading := false }
      | OutType.flowchart =>
        { s with conversation := conv ++ [⟨roleAssistant, ackMsg⟩],
                 userInput := [], flowchartDefinition := some out.content,
                 isComplete := true, isLoading := false }
      | OutType.error =>
        { s with conversation :=
                   conv ++ [⟨roleAssistant, chatErrPre ++ out.content⟩],
                 userInput := [], isLoading := false }

/-- A normalized output line is empty, a comment, free of edge tokens,
separator-terminated, or matches the strict-node-definition regex. -/
def goodLine (L : List Char) : Bool :=
  (trimL L).isEmpty || startsPercPerc (trimL L) || !(isLinkLine (trimL L)) ||
  endsSemi (trimL L) || isStrictNodeDef (trimL L)

/-- Substring-occurrence predicate: `p` occurs inside `s`. -/
def InfixP (p s : List Char) : Prop := ∃ u v, s = u ++ p ++ v

/-- Number of double-quote characters in a list. -/
def countQ : List Char → Nat
  | [] => 0
  | c :: cs => (if c = '"' then 1 else 0) + countQ cs

/-!
Supporting lemmas.
-/

theorem splitLabel_length :
    ∀ xs l b r, splitLabel xs = some (l, b, r) → r.length < xs.length := by
  intro xs
  induction xs with
  | nil => intro l b r h; simp [splitLabel] at h
  | cons c cs ih =>
    intro l b r h
    by_cases hc : isCloseB c = true
    · simp [splitLabel, hc] at h
      obtain ⟨-, -, h3⟩ := h
      subst h3; simp
    · by_cases hn : c = '\n'
      · rw [hn] at h
        simp [splitLabel, show isCloseB '\n' = false from by decide] at h
      · cases hs : splitLabel cs with
        | none => simp [splitLabel, hc, hn, hs] at h
        | some v =>
          obtain ⟨l', b', r'⟩ := v
          simp [splitLabel, hc, hn, hs] at h
          obtain ⟨-, -, h3⟩ := h
          subst h3
          have := ih l' b' r' hs
          simp; omega

theorem dropWhile_length_le (p : Char → Bool) :
    ∀ l : List Char, (l.dropWhile p).length ≤ l.length := by
  intro l
  induction l with
  | nil => simp
  | cons c cs ih =>
    rw [List.dropWhile_cons]
    by_cases h : p c = true
    · simp [h]; omega
    · simp [h]

theorem quoteLabelsF_fuel :
    ∀ fuel fuel' s, s.length ≤ fuel → s.length ≤ fuel' →
      quoteLabelsF fuel s = quoteLabelsF fuel' s := by
  intro fuel
  induction fuel with
  | zero =>
    intro fuel' s hs _
    have h0 : s = [] := List.length_eq_zero.mp (Nat.le_zero.mp hs)
    subst h0
    cases fuel' <;> rfl
  | succ f ih =>
    intro fuel' s hs hs'
    cases fuel' with
    | zero =>
      have h0 : s = [] := List.length_eq_zero.mp (Nat.le_zero.mp hs')
      subst h0; rfl
    | succ f' =>
      cases s with
      | nil => rfl
      | cons c cs =>
        have hcs : cs.length ≤ f := by simp at hs; omega
        have hcs' : cs.length ≤ f' := by simp at hs'; omega
        simp only [quoteLabelsF]
        by_cases hw : isWc c = true
        · rw [if_pos hw, if_pos hw]
          cases hdw : cs.dropWhile isWc with
          | nil => rfl
          | cons b rest2 =>
            dsimp only
            have hlen2 : rest2.length + 1 ≤ cs.length := by
              have hd := dropWhile_length_le isWc cs
              rw [hdw] at hd; simpa using hd
            by_cases hb : isOpenB b = true
            · rw [if_pos hb, if_pos hb]
              cases hsl : splitLabel rest2 with
              | none =>
                dsimp only
                rw [ih f' rest2 (by omega) (by omega)]
              | some v =>
                obtain ⟨lbl, bb, rest3⟩ := v
                dsimp only
                have h3 := splitLabel_length rest2 lbl bb rest3 hsl
                rw [ih f' rest3 (by omega) (by omega)]
            · rw [if_neg hb, if_neg hb]
              rw [ih f' (b :: rest2) (by simp; omega) (by simp; omega)]
        · rw [if_neg hw, if_neg hw]
          rw [ih f' cs hcs hcs']

/-- Master unfolding equation for `quoteLabels` on a cons cell, with the
recursive occurrences already re-expressed through `quoteLabels`. -/
theorem quoteLabels_cons (c : Char) (cs : List Char) :
    quoteLabels (c :: cs) =
      if isWc c then
        match cs.dropWhile isWc with
        | b :: rest2 =>
          if isOpenB b then
            match splitLabel rest2 with
            | some (lbl, _, rest3) =>
              cleanId (c :: cs.takeWhile isWc) ++
                '[' :: '"' :: escQ lbl ++ '"' :: ']' :: quoteLabels rest3
            | none => (c :: cs.takeWhile isWc) ++ b :: quoteLabels rest2
          else (c :: cs.takeWhile isWc) ++ quoteLabels (b :: rest2)
        | [] => c :: cs.takeWhile isWc
      else c :: quoteLabels cs := by
  show quoteLabelsF (cs.length + 1) (c :: cs) = _
  simp only [quoteLabelsF]
  by_cases hw : isWc c = true
  · rw [if_pos hw, if_pos hw]
    cases hdw : cs.dropWhile isWc with
    | nil => rfl
    | cons b rest2 =>
      dsimp only
      have hlen2 : rest2.length + 1 ≤ cs.length := by
        have hd := dropWhile_length_le isWc cs
        rw [hdw] at hd; simpa using hd
      by_cases hb : isOpenB b = true
      · rw [if_pos hb, if_pos hb]
        cases hsl : splitLabel rest2 with
        | none =>
          dsimp only
          rw [quoteLabelsF_fuel cs.length rest2.length rest2 (by omega)
            (Nat.le_refl _)]
          rfl
        | some v =>
          obtain ⟨lbl, bb, rest3⟩ := v
          dsimp only
          have h3 := splitLabel_length rest2 lbl bb rest3 hsl
          rw [quoteLabelsF_fuel cs.length rest3.length rest3 (by omega)
            (Nat.le_refl _)]
          rfl
      · rw [if_neg hb, if_neg hb]
        rw [quoteLabelsF_fuel cs.length (b :: rest2).length (b :: rest2)
          (by simp; omega) (Nat.le_refl _)]
        rfl
  · rw [if_neg hw, if_neg hw]
    rw [quoteLabelsF_fuel cs.length cs.length cs (Nat.le_refl _)
      (Nat.le_refl _)]
    rfl

theorem stripSemisF_fuel :
    ∀ fuel fuel' s, s.length ≤ fuel → s.length ≤ fuel' →
      stripSemisF fuel s = stripSemisF fuel' s := by
  intro fuel
  induction fuel with
  | zero =>
    intro fuel' s hs _
    have h0 : s = [] := List.length_eq_zero.mp (Nat.le_zero.mp hs)
    subst h0
    cases fuel' <;> rfl
  | succ f ih =>
    intro fuel' s hs hs'
    cases fuel' with
    | zero =>
      have h0 : s = [] := List.length_eq_zero.mp (Nat.le_zero.mp hs')
      subst h0; rfl
    | succ f' =>
      cases s with
      | nil => rfl
      | cons c cs =>
        have hcs : cs.length ≤ f := by simp at hs; omega
        have hcs' : cs.length ≤ f' := by simp at hs'; omega
        simp only [stripSemisF]
        by_cases hq : isCloserQ c = true
        · rw [if_pos hq, if_pos hq]
          cases hdw : cs.dropWhile isWs with
          | nil => rw [ih f' cs hcs hcs']
          | cons d rest2 =>
            dsimp only
            have hlen2 : rest2.length + 1 ≤ cs.length := by
              have hd := dropWhile_length_le isWs cs
              rw [hdw] at hd; simpa using hd
            by_cases hsc : d = ';'
            · rw [if_pos hsc, if_pos hsc]
              rw [ih f' rest2 (by omega) (by omega)]
            · rw [if_neg hsc, if_neg hsc]
              rw [ih f' cs hcs hcs']
        · rw [if_neg hq, if_neg hq]
          rw [ih f' cs hcs hcs']

/-- Master unfolding equation for `stripSemis` on a cons cell. -/
theorem stripSemis_cons (c : Char) (cs : List Char) :
    stripSemis (c :: cs) =
      if isCloserQ c then
        match cs.dropWhile isWs with
        | d :: rest2 =>
          if d = ';' then c :: (cs.takeWhile isWs ++ stripSemis rest2)
          else c :: stripSemis cs
        | [] => c :: stripSemis cs
      else c :: stripSemis cs := by
  show stripSemisF (cs.length + 1) (c :: cs) = _
  simp only [stripSemisF]
  by_cases hq : isCloserQ c = true
  · rw [if_pos hq, if_pos hq]
    cases hdw : cs.dropWhile isWs with
    | nil =>
      rw [stripSemisF_fuel cs.length cs.length cs (Nat.le_refl _)
        (Nat.le_refl _)]
      rfl
    | cons d rest2 =>
      dsimp only
      have hlen2 : rest2.length + 1 ≤ cs.length := by
        have hd := dropWhile_length_le isWs cs
        rw [hdw] at hd; simpa using hd
      by_cases hsc : d = ';'
      · rw [if_pos hsc, if_pos hsc]
        rw [stripSemisF_fuel cs.length rest2.length rest2 (by omega)
          (Nat.le_refl _)]
        rfl
      · rw [if_neg hsc, if_neg hsc]
        rw [stripSemisF_fuel cs.length cs.length cs (Nat.le_refl _)
          (Nat.le_refl _)]
        rfl
  · rw [if_neg hq, if_neg hq]
    rw [stripSemisF_fuel cs.length cs.length cs (Nat.le_refl _)
      (Nat.le_refl _)]
    rfl

theorem mem_takeWhile (p : Char → Bool) :
    ∀ (l : List Char) (c : Char), c ∈ l.takeWhile p → p c = true := by
  intro l
  induction l with
  | nil => simp
  | cons a as ih =>
    intro c hc
    by_cases ha : p a = true
    · rw [List.takeWhile_cons_of_pos ha] at hc
      rcases List.mem_cons.mp hc with h | h
      · rw [h]; exact ha
      · exact ih c h
    · rw [List.takeWhile_cons_of_neg ha] at hc
      simp at hc

theorem cleanId_of_run (r : List Char) (h : ∀ c ∈ r, isWc c = true) :
    cleanId r = r := by
  induction r with
  | nil => rfl
  | cons a as ih =>
    have ha := h a (List.mem_cons_self a as)
    have ih2 := ih (fun c hc => h c (List.mem_cons_of_mem a hc))
    simp only [cleanId, List.map_cons, ha, if_pos]
    simp only [cleanId] at ih2
    rw [ih2]

theorem sanitizeLine_id (l : List Char) : sanitizeLine l = l := by
  unfold sanitizeLine
  cases h : (l.dropWhile isWs).dropWhile isWc with
  | nil => rfl
  | cons b rest =>
    dsimp only
    by_cases hc :
        (!((l.dropWhile isWs).takeWhile isWc).isEmpty && isOpenB b) = true
    · rw [if_pos hc]
      rw [cleanId_of_run _ (fun c hcmem => mem_takeWhile isWc _ c hcmem)]
      rw [List.append_assoc, ← h, List.takeWhile_append_dropWhile,
        List.takeWhile_append_dropWhile]
    · rw [if_neg hc]

theorem splitNl_ne_nil (s : List Char) : splitNl s ≠ [] := by
  cases s with
  | nil => simp [splitNl]
  | cons c cs =>
    unfold splitNl
    by_cases h : c = '\n'
    · simp [h]
    · rw [if_neg h]
      cases splitNl cs <;> simp

theorem joinNl_splitNl (s : List Char) : joinNl (splitNl s) = s := by
  induction s with
  | nil => rfl
  | cons c cs ih =>
    unfold splitNl
    by_cases h : c = '\n'
    · rw [if_pos h]
      cases hs : splitNl cs with
      | nil => exact absurd hs (splitNl_ne_nil cs)
      | cons l ls =>
        rw [hs] at ih
        show ([] : List Char) ++ '\n' :: joinNl (l :: ls) = c :: cs
        rw [List.nil_append, ih, h]
    · rw [if_neg h]
      cases hs : splitNl cs with
      | nil => exact absurd hs (splitNl_ne_nil cs)
      | cons l ls =>
        dsimp only
        rw [hs] at ih
        cases ls with
        | nil =>
          have hl : l = cs := ih
          show c :: l = c :: cs
          rw [hl]
        | cons y ys =>
          have h2 : l ++ '\n' :: joinNl (y :: ys) = cs := ih
          show (c :: l) ++ '\n' :: joinNl (y :: ys) = c :: cs
          rw [List.cons_append, h2]

theorem map_sanitizeLine_id (ls : List (List Char)) :
    ls.map sanitizeLine = ls := by
  induction ls with
  | nil => rfl
  | cons l ls ih => simp [sanitizeLine_id, ih]

/-!
Claim theorems.
-/

/-- C6 (counterexample): on `flowchart TD\nA-B[x] --> C` the cleanup
leaves the hyphenated identifier-like token `A-B` before its bracket
untouched (the output still contains `A-B[` and not `A_B[`), because the
sanitization regexes only ever capture word-character runs. -/
theorem C6_counterexample :
    cleanupFlowchart "flowchart TD\nA-B[x] --> C".data =
      CleanResult.ok "flowchart TD\nA-B[\"x\"] --> C;".data ∧
    occurs "A-B[".data "flowchart TD\nA-B[\"x\"] --> C;".data = true ∧
    occurs "A_B[".data "flowchart TD\nA-B[\"x\"] --> C;".data = false := by
  exact ⟨by decide, by decide, by decide⟩

theorem sanitizeIds_identity (s : List Char) : sanitizeIds s = s := by
  unfold sanitizeIds
  rw [map_sanitizeLine_id, joinNl_splitNl]

/-- C6 (amended): the node-identifier sanitization pass only captures
runs that already consist of word characters `[A-Za-z0-9_]`, on which the
underscore replacement does nothing, so the whole pass is the identity;
identifiers containing other characters are never rewritten. -/
theorem C6_sanitize_identity (s : List Char) : sanitizeIds s = s :=
  sanitizeIds_identity s

theorem hsm_noop (collab : List Msg → Except Unit ConvOut) (s : ChatState)
    (h : s.isLoading = true ∨ s.isComplete = true ∨ trimL s.userInput = []) :
    handleSendMessage collab s = s := by
  unfold handleSendMessage
  have hcond :
      ((trimL s.userInput).isEmpty || s.isLoading || s.isComplete) = true := by
    rcases h with h | h | h
    · rw [h]; simp
    · rw [h]; simp
    · rw [h]; simp
  dsimp only
  rw [if_pos hcond]

theorem hsm_go (collab : List Msg → Except Unit ConvOut) (s : ChatState)
    (h1 : s.isLoading = false) (h2 : s.isComplete = false)
    (h3 : trimL s.userInput ≠ []) :
    handleSendMessage collab s =
      match collab (s.conversation ++ [⟨roleUser, trimL s.userInput⟩]) with
      | Except.error _ =>
        { s with
            conversation :=
              (s.conversation ++ [⟨roleUser, trimL s.userInput⟩]) ++
                [⟨roleAssistant, chatCatchMsg⟩],
            userInput := [], isLoading := false }
      | Except.ok out =>
        match out.type with
        | OutType.question =>
          { s with
              conversation :=
                (s.conversation ++ [⟨roleUser, trimL s.userInput⟩]) ++
                  [⟨roleAssistant, out.content⟩],
              userInput := [], isLoading := false }
        | OutType.flowchart =>
          { s with
              conversation :=
                (s.conversation ++ [⟨roleUser, trimL s.userInput⟩]) ++
                  [⟨roleAssistant, ackMsg⟩],
              userInput := [], flowchartDefinition := some out.content,
              isComplete := true, isLoading := false }
        | OutType.error =>
          { s with
              conversation :=
                (s.conversation ++ [⟨roleUser, trimL s.userInput⟩]) ++
                  [⟨roleAssistant, chatErrPre ++ out.content⟩],
              userInput := [], isLoading := false } := by
  unfold handleSendMessage
  have hcond :
      ¬(((trimL s.userInput).isEmpty || s.isLoading || s.isComplete) = true) := by
    rw [h1, h2]
    cases hl : trimL s.userInput with
    | nil => exact absurd hl h3
    | cons a as => simp
  dsimp only
  rw [if_neg hcond]

theorem firstBadRole_some :
    ∀ msgs : List Msg, (∃ m ∈ msgs, validRole m.role = false) →
      ∃ r, firstBadRole msgs = some r := by
  intro msgs
  induction msgs with
  | nil => rintro ⟨m, hm, -⟩; simp at hm
  | cons m ms ih =>
    rintro ⟨m2, hm2, hbad⟩
    by_cases hv : validRole m.role = true
    · rcases List.mem_cons.mp hm2 with h | h
      · rw [h] at hbad; rw [hv] at hbad; cases hbad
      · obtain ⟨r, hr⟩ := ih ⟨m2, h, hbad⟩
        exact ⟨r, by unfold firstBadRole; rw [if_pos hv]; exact hr⟩
    · exact ⟨m.role, by unfold firstBadRole; rw [if_neg hv]⟩

/-- C7: the turn controller invokes the collaborator only in the
Collecting state with non-empty trimmed input: while a reply is awaited
(`isLoading`), or once complete, or on whitespace-only input, a submit
returns the state unchanged for every collaborator; and when a submit
does go through and the reply is of flowchart type, the new state is
Complete, after which every further submit is again a no-op for every
collaborator. -/
theorem C7_submit_guard (s : ChatState) :
    (∀ collab, s.isLoading = true ∨ s.isComplete = true ∨
        trimL s.userInput = [] → handleSendMessage collab s = s) ∧
    (∀ collab out, s.isLoading = false → s.isComplete = false →
      trimL s.userInput ≠ [] →
      collab (s.conversation ++ [⟨roleUser, trimL s.userInput⟩]) =
        Except.ok out →
      out.type = OutType.flowchart →
      (handleSendMessage collab s).isComplete = true ∧
      ∀ collab2,
        handleSendMessage collab2 (handleSendMessage collab s) =
          handleSendMessage collab s) := by
  constructor
  · intro collab h
    exact hsm_noop collab s h
  · intro collab out h1 h2 h3 hc ht
    have hstep := hsm_go collab s h1 h2 h3
    rw [hc] at hstep
    obtain ⟨t, c⟩ := out
    cases ht
    have hcomp : (handleSendMessage collab s).isComplete = true := by
      rw [hstep]
    refine ⟨hcomp, fun collab2 => ?_⟩
    exact hsm_noop collab2 _ (Or.inr (Or.inl hcomp))

/-- C7 (witness): a concrete loading-state submit is ignored, and a
concrete successful diagram turn completes the conversation. -/
theorem C7_submit_guard_witness :
    handleSendMessage (fun _ => Except.ok ⟨OutType.question, []⟩)
        ⟨[], "x".data, none, true, false⟩ =
      ⟨[], "x".data, none, true, false⟩ ∧
    (handleSendMessage (fun _ => Except.ok ⟨OutType.flowchart, "d".data⟩)
        ⟨[], "x".data, none, false, false⟩).isComplete = true := by
  constructor
  · exact (C7_submit_guard _).1 _ (Or.inl rfl)
  · exact ((C7_submit_guard _).2 _ ⟨OutType.flowchart, "d".data⟩ rfl rfl
      (by decide) rfl rfl).1

/-- C9: when the collaborator invocation throws (modeled by
`Except.error`), the failure is absorbed: the generic failure notice is
appended as a final assistant message, loading ends and the conversation
is not complete (back to Collecting); an error-typed reply likewise
appends an assistant message carrying the error and returns to
Collecting. -/
theorem C9_failure_recovery (collab : List Msg → Except Unit ConvOut)
    (s : ChatState) (h1 : s.isLoading = false) (h2 : s.isComplete = false)
    (h3 : trimL s.userInput ≠ []) :
    (collab (s.conversation ++ [⟨roleUser, trimL s.userInput⟩]) =
        Except.error () →
      handleSendMessage collab s =
        { s with
            conversation :=
              s.conversation ++
                [⟨roleUser, trimL s.userInput⟩, ⟨roleAssistant, chatCatchMsg⟩],
            userInput := [], isLoading := false } ∧
      (handleSendMessage collab s).isComplete = false) ∧
    (∀ m, collab (s.conversation ++ [⟨roleUser, trimL s.userInput⟩]) =
        Except.ok ⟨OutType.error, m⟩ →
      handleSendMessage collab s =
        { s with
            conversation :=
              s.conversation ++
                [⟨roleUser, trimL s.userInput⟩,
                  ⟨roleAssistant, chatErrPre ++ m⟩],
            userInput := [], isLoading := false } ∧
      (handleSendMessage collab s).isComplete = false) := by
  constructor
  · intro hc
    have hstep := hsm_go collab s h1 h2 h3
    rw [hc] at hstep
    dsimp only at hstep
    rw [List.append_assoc] at hstep
    refine ⟨hstep, ?_⟩
    rw [hstep]
    exact h2
  · intro m hc
    have hstep := hsm_go collab s h1 h2 h3
    rw [hc] at hstep
    dsimp only at hstep
    rw [List.append_assoc] at hstep
    refine ⟨hstep, ?_⟩
    rw [hstep]
    exact h2

/-- C9 (witness): a concrete throwing collaborator yields the Collecting
state with the generic failure notice appended. -/
theorem C9_failure_recovery_witness :
    handleSendMessage (fun _ => Except.error ())
        ⟨[], "hi".data, none, false, false⟩ =
      ⟨[⟨roleUser, "hi".data⟩, ⟨roleAssistant, chatCatchMsg⟩], [],
        none, false, false⟩ := by
  have h0 := C9_failure_recovery (fun _ => Except.error ())
    ⟨[], "hi".data, none, false, false⟩ rfl rfl (by decide)
  have h := h0.1 rfl
  rw [h.1]
  decide

/-- C10: a collaborator reply of question or error type passes through
the flow with identical content: on a valid transcript the flow returns
exactly the collaborator reply, untouched; only flowchart replies are
rewritten. -/
theorem C10_passthrough (llm : List Msg → ConvOut) (msgs : List Msg)
    (hv : validateMsgs msgs = none)
    (ht : (llm msgs).type = OutType.question ∨
      (llm msgs).type = OutType.error) :
    conversationalFlow llm msgs = llm msgs := by
  unfold conversationalFlow
  rw [hv]
  dsimp only
  rcases ht with h | h <;> rw [h]

/-- C10 (witness): a concrete question reply is returned verbatim. -/
theorem C10_passthrough_witness :
    conversationalFlow (fun _ => ⟨OutType.question, "w".data⟩)
        [⟨roleUser, "hi".data⟩] =
      ⟨OutType.question, "w".data⟩ := by
  exact C10_passthrough _ _ (by decide) (Or.inl rfl)

/-- C8 (counterexample): a transcript whose only message has empty
content is not rejected: the collaborator is invoked and its reply
returned, as shown by two collaborators producing two different results,
where the claim demands a synthesized error without invocation. -/
theorem C8_counterexample :
    conversationalFlow (fun _ => ⟨OutType.question, "Q".data⟩)
        [⟨roleUser, []⟩] = ⟨OutType.question, "Q".data⟩ ∧
    conversationalFlow (fun _ => ⟨OutType.question, "R".data⟩)
        [⟨roleUser, []⟩] = ⟨OutType.question, "R".data⟩ := by
  exact ⟨by decide, by decide⟩

/-- C8 (amended): the local validation rejects exactly the empty
transcript and transcripts containing a message whose role is outside
user/assistant, synthesizing an error reply without consulting the
collaborator (the result is the same for every collaborator); emptiness
of message content is not checked. -/
theorem C8_local_validation (llm : List Msg → ConvOut) (msgs : List Msg)
    (h : msgs = [] ∨ ∃ m ∈ msgs, validRole m.role = false) :
    (conversationalFlow llm msgs).type = OutType.error ∧
    ∀ llm2, conversationalFlow llm msgs = conversationalFlow llm2 msgs := by
  have hv : ∃ e, validateMsgs msgs = some e := by
    rcases h with h | h
    · subst h; exact ⟨emptyMsgsErr, rfl⟩
    · cases msgs with
      | nil =>
        obtain ⟨m, hm, -⟩ := h
        simp at hm
      | cons m0 ms =>
        obtain ⟨r, hr⟩ := firstBadRole_some _ h
        refine ⟨roleErr r, ?_⟩
        show (firstBadRole (m0 :: ms)).map roleErr = some (roleErr r)
        rw [hr]
        rfl
  obtain ⟨e, he⟩ := hv
  constructor
  · unfold conversationalFlow
    rw [he]
  · intro llm2
    unfold conversationalFlow
    rw [he]

/-- C8 (amended, witness): a transcript with a `system` role is rejected
identically for two different collaborators. -/
theorem C8_local_validation_witness :
    (conversationalFlow (fun _ => ⟨OutType.question, "Q".data⟩)
      [⟨"system".data, "x".data⟩]).type = OutType.error ∧
    conversationalFlow (fun _ => ⟨OutType.question, "Q".data⟩)
        [⟨"system".data, "x".data⟩] =
      conversationalFlow (fun _ => ⟨OutType.flowchart, "y".data⟩)
        [⟨"system".data, "x".data⟩] := by
  have h := C8_local_validation (fun _ => ⟨OutType.question, "Q".data⟩)
    [⟨"system".data, "x".data⟩]
    (Or.inr ⟨⟨"system".data, "x".data⟩, by decide, by decide⟩)
  exact ⟨h.1, h.2 _⟩

/-- C2 (counterexample): with the collaborator mock replying a diagram
with content `A[Start] --> B[End]`, the stored diagram definition is not
the string the claim names: the cleanup quotes both labels and, because
the line then matches the strict-node-definition regex, appends no
trailing separator. -/
theorem C2_counterexample :
    (handleSendMessage
        (fun ms => Except.ok (conversationalFlow
          (fun _ => ⟨OutType.flowchart, "A[Start] --> B[End]".data⟩) ms))
        ⟨[⟨roleAssistant, greetingMsg⟩], "Add a login button".data,
          none, false, false⟩).flowchartDefinition ≠
      some "flowchart TD\nA[Start] --> B[End];".data := by
  decide

/-- C2 (amended): in the same scenario the stored diagram definition is
`flowchart TD\nA["Start"] --> B["End"]` (labels quoted, no trailing
separator) and the conversation is Complete. -/
theorem C2_amended_scenario :
    (handleSendMessage
        (fun ms => Except.ok (conversationalFlow
          (fun _ => ⟨OutType.flowchart, "A[Start] --> B[End]".data⟩) ms))
        ⟨[⟨roleAssistant, greetingMsg⟩], "Add a login button".data,
          none, false, false⟩).flowchartDefinition =
      some "flowchart TD\nA[\"Start\"] --> B[\"End\"]".data ∧
    (handleSendMessage
        (fun ms => Except.ok (conversationalFlow
          (fun _ => ⟨OutType.flowchart, "A[Start] --> B[End]".data⟩) ms))
        ⟨[⟨roleAssistant, greetingMsg⟩], "Add a login button".data,
          none, false, false⟩).isComplete = true := by
  exact ⟨by decide, by decide⟩

theorem leadsWith_iff (p s : List Char) :
    leadsWith p s = true ↔ ∃ v, s = p ++ v := by
  induction p generalizing s with
  | nil =>
    simp only [leadsWith, List.nil_append]
    constructor
    · intro _; exact ⟨s, rfl⟩
    · intro _; trivial
  | cons a p' ih =>
    cases s with
    | nil =>
      simp only [leadsWith]
      constructor
      · intro h; cases h
      · rintro ⟨v, hv⟩; simp at hv
    | cons b s' =>
      simp only [leadsWith, Bool.and_eq_true, beq_iff_eq, ih]
      constructor
      · rintro ⟨rfl, v, rfl⟩
        exact ⟨v, rfl⟩
      · rintro ⟨v, hv⟩
        rw [List.cons_append] at hv
        injection hv with h1 h2
        exact ⟨h1.symm, v, h2⟩

theorem leadsWith_append_self (p x : List Char) :
    leadsWith p (p ++ x) = true :=
  (leadsWith_iff p (p ++ x)).mpr ⟨x, rfl⟩

theorem occurs_iff (p s : List Char) :
    occurs p s = true ↔ InfixP p s := by
  induction s with
  | nil =>
    show leadsWith p [] = true ↔ InfixP p []
    rw [leadsWith_iff]
    constructor
    · rintro ⟨v, hv⟩
      exact ⟨[], v, by rw [List.nil_append]; exact hv⟩
    · rintro ⟨u, v, huv⟩
      cases u with
      | cons a as => simp at huv
      | nil =>
        rw [List.nil_append] at huv
        exact ⟨v, huv⟩
  | cons c t ih =>
    show (leadsWith p (c :: t) || occurs p t) = true ↔ InfixP p (c :: t)
    rw [Bool.or_eq_true, leadsWith_iff, ih]
    constructor
    · rintro (⟨v, hv⟩ | ⟨u, v, huv⟩)
      · exact ⟨[], v, by rw [List.nil_append]; exact hv⟩
      · exact ⟨c :: u, v, by rw [huv]; rfl⟩
    · rintro ⟨u, v, huv⟩
      cases u with
      | nil =>
        left
        rw [List.nil_append] at huv
        exact ⟨v, huv⟩
      | cons a u' =>
        right
        rw [List.cons_append, List.cons_append] at huv
        injection huv with h1 h2
        exact ⟨u', v, h2⟩

theorem infixP_trans {a b c : List Char} :
    InfixP a b → InfixP b c → InfixP a c := by
  rintro ⟨u1, v1, rfl⟩ ⟨u2, v2, rfl⟩
  exact ⟨u2 ++ u1, v1 ++ v2, by simp [List.append_assoc]⟩

theorem occurs_of_infixP {p s t : List Char}
    (h : occurs p s = true) (hst : InfixP s t) : occurs p t = true :=
  (occurs_iff p t).mpr (infixP_trans ((occurs_iff p s).mp h) hst)

theorem infixP_map (f : Char → Char) {p s : List Char} (h : InfixP p s) :
    InfixP (p.map f) (s.map f) := by
  obtain ⟨u, v, rfl⟩ := h
  exact ⟨u.map f, v.map f, by simp⟩

theorem infixP_dropWhile (q : Char → Bool) (s : List Char) :
    InfixP (s.dropWhile q) s :=
  ⟨s.takeWhile q, [], by rw [List.append_nil, List.takeWhile_append_dropWhile]⟩

theorem trimRight_append (s : List Char) :
    trimRight s ++ (s.reverse.takeWhile isWs).reverse = s := by
  unfold trimRight
  rw [← List.reverse_append, List.takeWhile_append_dropWhile,
    List.reverse_reverse]

theorem infixP_trimRight (s : List Char) : InfixP (trimRight s) s :=
  ⟨[], (s.reverse.takeWhile isWs).reverse,
    by rw [List.nil_append, trimRight_append]⟩

theorem infixP_trimL (s : List Char) : InfixP (trimL s) s :=
  infixP_trans (infixP_trimRight (trimLeft s)) (infixP_dropWhile isWs s)

theorem infixP_drop (n : Nat) (s : List Char) : InfixP (s.drop n) s :=
  ⟨s.take n, [], by rw [List.append_nil, List.take_append_drop]⟩

theorem infixP_stripLeadFence (s : List Char) :
    InfixP (stripLeadFence s) s := by
  unfold stripLeadFence
  by_cases hf : leadsWith fence s = true
  · rw [if_pos hf]
    dsimp only
    by_cases hm : lowerL ((s.drop 3).take 7) = mermaidTag
    · rw [if_pos hm]
      exact infixP_trans (infixP_dropWhile isWs _)
        (infixP_trans (infixP_drop 7 _) (infixP_drop 3 s))
    · rw [if_neg hm]
      exact infixP_trans (infixP_dropWhile isWs _) (infixP_drop 3 s)
  · rw [if_neg hf]
    exact ⟨[], [], by simp⟩

theorem infixP_take (n : Nat) (s : List Char) : InfixP (s.take n) s :=
  ⟨[], s.drop n, by rw [List.nil_append, List.take_append_drop]⟩

theorem infixP_stripTrailFence (s : List Char) :
    InfixP (stripTrailFence s) s := by
  unfold stripTrailFence
  by_cases hf : leadsWith fence s.reverse = true
  · rw [if_pos hf]
    refine infixP_trans (infixP_trimRight _) ?_
    exact ⟨[], (s.reverse.take 3).reverse,
      by rw [List.nil_append, ← List.reverse_append,
        List.take_append_drop, List.reverse_reverse]⟩
  · rw [if_neg hf]
    exact ⟨[], [], by simp⟩

theorem occurs_of_leadsWith {p s : List Char} (h : leadsWith p s = true) :
    occurs p s = true := by
  obtain ⟨v, rfl⟩ := (leadsWith_iff p s).mp h
  exact (occurs_iff p (p ++ v)).mpr ⟨[], v, by rw [List.nil_append]⟩

theorem occurs_dropWhile_pos (q : Char → Bool) (c : Char) (p' : List Char)
    (hq : q c = false) :
    ∀ s, occurs (c :: p') s = true →
      occurs (c :: p') (s.dropWhile q) = true := by
  intro s
  induction s with
  | nil => intro h; simpa [occurs, leadsWith] using h
  | cons a t ih =>
    intro h
    by_cases ha : q a = true
    · rw [List.dropWhile_cons_of_pos ha]
      apply ih
      simp only [occurs] at h
      rw [Bool.or_eq_true] at h
      rcases h with hl | ht
      · simp only [leadsWith, Bool.and_eq_true, beq_iff_eq] at hl
        rw [hl.1] at hq
        rw [hq] at ha
        cases ha
      · exact ht
    · rw [List.dropWhile_cons_of_neg ha]
      exact h

theorem occurs_reverse (p s : List Char) :
    occurs p s = true ↔ occurs p.reverse s.reverse = true := by
  rw [occurs_iff, occurs_iff]
  constructor
  · rintro ⟨u, v, rfl⟩
    exact ⟨v.reverse, u.reverse, by simp⟩
  · rintro ⟨u, v, h⟩
    refine ⟨v.reverse, u.reverse, ?_⟩
    have h2 := congrArg List.reverse h
    simp only [List.reverse_reverse, List.reverse_append] at h2
    rw [h2]
    simp [List.append_assoc]

theorem occurs_append_rt (c : Char) (p' : List Char) :
    ∀ a b : List Char, c ∉ a → occurs (c :: p') (a ++ b) = true →
      occurs (c :: p') b = true := by
  intro a
  induction a with
  | nil => intro b _ h; simpa using h
  | cons x a' ih =>
    intro b hc h
    simp only [List.cons_append, occurs] at h
    rw [Bool.or_eq_true] at h
    rcases h with hl | ht
    · simp only [leadsWith, Bool.and_eq_true, beq_iff_eq] at hl
      exact absurd (by rw [hl.1]; exact List.mem_cons_self x a') hc
    · exact ih b (fun hmm => hc (List.mem_cons_of_mem x hmm)) ht

theorem occurs_trimRight_pos (p : List Char) (c2 : Char) (p2 : List Char)
    (hpr : p.reverse = c2 :: p2) (h2 : isWs c2 = false) (s : List Char)
    (ho : occurs p s = true) : occurs p (trimRight s) = true := by
  have ha := (occurs_reverse p s).mp ho
  rw [hpr] at ha
  have hb := occurs_dropWhile_pos isWs c2 p2 h2 s.reverse ha
  rw [← hpr] at hb
  unfold trimRight
  rw [occurs_reverse p, List.reverse_reverse]
  exact hb

theorem occurs_trimL_pos (p : List Char) (c1 c2 : Char) (p1 p2 : List Char)
    (hp : p = c1 :: p1) (hpr : p.reverse = c2 :: p2)
    (hw1 : isWs c1 = false) (hw2 : isWs c2 = false) (s : List Char)
    (ho : occurs p s = true) : occurs p (trimL s) = true := by
  unfold trimL trimLeft
  refine occurs_trimRight_pos p c2 p2 hpr hw2 _ ?_
  rw [hp] at ho ⊢
  exact occurs_dropWhile_pos isWs c1 p1 hw1 s ho

theorem occurs_stripLeadFence_pos (c1 : Char) (p1 : List Char)
    (hw : isWs c1 = false) (hb : c1 ≠ btick)
    (hmer : Char.toLower c1 ∈ mermaidTag → False) (s : List Char)
    (ho : occurs (c1 :: p1) s = true) :
    occurs (c1 :: p1) (stripLeadFence s) = true := by
  unfold stripLeadFence
  by_cases hf : leadsWith fence s = true
  · rw [if_pos hf]
    dsimp only
    obtain ⟨v, rfl⟩ := (leadsWith_iff fence s).mp hf
    have hdrop : (fence ++ v).drop 3 = v := List.drop_left fence v
    rw [hdrop]
    have hcf : c1 ∉ fence := by
      intro hmem
      simp [fence] at hmem
      exact hb hmem
    have hv : occurs (c1 :: p1) v = true := occurs_append_rt c1 p1 fence v hcf ho
    by_cases hmm : lowerL (v.take 7) = mermaidTag
    · rw [if_pos hmm]
      refine occurs_dropWhile_pos isWs c1 p1 hw _ ?_
      refine occurs_append_rt c1 p1 (v.take 7) (v.drop 7) ?_ ?_
      · intro hmem
        exact hmer (by rw [← hmm]; exact List.mem_map_of_mem _ hmem)
      · rw [List.take_append_drop]
        exact hv
    · rw [if_neg hmm]
      exact occurs_dropWhile_pos isWs c1 p1 hw v hv
  · rw [if_neg hf]
    exact ho

theorem occurs_stripTrailFence_pos (p : List Char) (c2 : Char)
    (p2 : List Char) (hpr : p.reverse = c2 :: p2) (hw : isWs c2 = false)
    (hb : c2 ≠ btick) (s : List Char) (ho : occurs p s = true) :
    occurs p (stripTrailFence s) = true := by
  unfold stripTrailFence
  by_cases hf : leadsWith fence s.reverse = true
  · rw [if_pos hf]
    obtain ⟨v, hv⟩ := (leadsWith_iff fence s.reverse).mp hf
    have ha := (occurs_reverse p s).mp ho
    rw [hv, hpr] at ha
    have hcf : c2 ∉ fence := by
      intro hmem
      simp [fence] at hmem
      exact hb hmem
    have hvv : occurs (c2 :: p2) v = true := occurs_append_rt c2 p2 fence v hcf ha
    rw [hv]
    have hdrop : (fence ++ v).drop 3 = v := List.drop_left fence v
    rw [hdrop]
    have h3 : occurs p v.reverse = true := by
      rw [occurs_reverse p v.reverse, List.reverse_reverse, hpr]
      exact hvv
    exact occurs_trimRight_pos p c2 p2 hpr hw v.reverse h3
  · rw [if_neg hf]
    exact ho

theorem occurs_edge_strip (p s : List Char)
    (hp : p = edgeArrow ∨ p = edgeDash) (ho : occurs p s = true) :
    occurs p (trimL (stripTrailFence (stripLeadFence (trimL s)))) = true := by
  rcases hp with rfl | rfl
  · have s1 := occurs_trimL_pos edgeArrow '-' '>' ['-', '>'] ['-', '-']
      rfl rfl (by decide) (by decide) s ho
    have s2 := occurs_stripLeadFence_pos '-' ['-', '>'] (by decide)
      (by decide) (by decide) _ s1
    have s3 := occurs_stripTrailFence_pos edgeArrow '>' ['-', '-'] rfl
      (by decide) (by decide) _ s2
    exact occurs_trimL_pos edgeArrow '-' '>' ['-', '>'] ['-', '-']
      rfl rfl (by decide) (by decide) _ s3
  · have s1 := occurs_trimL_pos edgeDash '-' '-' ['-', '-'] ['-', '-']
      rfl rfl (by decide) (by decide) s ho
    have s2 := occurs_stripLeadFence_pos '-' ['-', '-'] (by decide)
      (by decide) (by decide) _ s1
    have s3 := occurs_stripTrailFence_pos edgeDash '-' ['-', '-'] rfl
      (by decide) (by decide) _ s2
    exact occurs_trimL_pos edgeDash '-' '-' ['-', '-'] ['-', '-']
      rfl rfl (by decide) (by decide) _ s3

theorem infixP_strip (raw : List Char) :
    InfixP (trimL (stripTrailFence (stripLeadFence (trimL raw)))) raw :=
  infixP_trans (infixP_trimL _)
    (infixP_trans (infixP_stripTrailFence _)
      (infixP_trans (infixP_stripLeadFence _) (infixP_trimL raw)))

/-- C4 (counterexample): on the connector-free, header-free input
`hello world` the cleanup returns the fixed error reply of line 157,
whose content is not a diagram (it does not even start with
`flowchart`), not the single-error-node fallback diagram. -/
theorem C4_counterexample :
    cleanupFlowchart "hello world".data =
      CleanResult.error cleanupErrMsg ∧
    leadsWith "flowchart".data (lowerL cleanupErrMsg) = false ∧
    cleanupErrMsg ≠ fallbackDiagram := by
  exact ⟨by decide, by decide, by decide⟩

/-- C4 (amended): for every raw input containing no edge connector token
and no recognized header spelling, the conversational cleanup returns the
fixed, non-empty error reply (never an empty string, never a failure);
the single-error-node fallback diagram exists only in the one-shot
generator flow, which returns it exactly when the model output is empty
after fence stripping. -/
theorem C4_unrecoverable_input (raw : List Char)
    (h1 : occurs hdrFlow (lowerL raw) = false)
    (h2 : occurs hdrGraph (lowerL raw) = false)
    (h3 : occurs edgeArrow raw = false)
    (h4 : occurs edgeDash raw = false) :
    cleanupFlowchart raw = CleanResult.error cleanupErrMsg ∧
    cleanupErrMsg ≠ [] ∧ generateCleanup [] = fallbackDiagram := by
  refine ⟨?_, by decide, by decide⟩
  unfold cleanupFlowchart
  dsimp only
  have hinf : InfixP (trimL (stripTrailFence (stripLeadFence (trimL raw))))
      raw := infixP_strip raw
  have ha : leadsWith hdrFlow
      (lowerL (trimL (stripTrailFence (stripLeadFence (trimL raw))))) =
      false := by
    by_contra hcon
    rw [Bool.not_eq_false] at hcon
    have hocc := occurs_of_infixP (occurs_of_leadsWith hcon)
      (infixP_map Char.toLower hinf)
    rw [show (List.map Char.toLower raw) = lowerL raw from rfl, h1] at hocc
    cases hocc
  have hb : leadsWith hdrGraph
      (lowerL (trimL (stripTrailFence (stripLeadFence (trimL raw))))) =
      false := by
    by_contra hcon
    rw [Bool.not_eq_false] at hcon
    have hocc := occurs_of_infixP (occurs_of_leadsWith hcon)
      (infixP_map Char.toLower hinf)
    rw [show (List.map Char.toLower raw) = lowerL raw from rfl, h2] at hocc
    cases hocc
  have hc : occurs edgeArrow
      (trimL (stripTrailFence (stripLeadFence (trimL raw)))) = false := by
    by_contra hcon
    rw [Bool.not_eq_false] at hcon
    have hocc := occurs_of_infixP hcon hinf
    rw [h3] at hocc
    cases hocc
  have hd : occurs edgeDash
      (trimL (stripTrailFence (stripLeadFence (trimL raw)))) = false := by
    by_contra hcon
    rw [Bool.not_eq_false] at hcon
    have hocc := occurs_of_infixP hcon hinf
    rw [h4] at hocc
    cases hocc
  rw [ha, hb, hc, hd]
  rfl

/-- C4 (amended, witness): the lemma applied to the concrete garbage
input `hello world`. -/
theorem C4_unrecoverable_input_witness :
    cleanupFlowchart "hello world".data =
      CleanResult.error cleanupErrMsg ∧
    cleanupErrMsg ≠ [] ∧ generateCleanup [] = fallbackDiagram := by
  exact C4_unrecoverable_input "hello world".data
    (by decide) (by decide) (by decide) (by decide)

theorem takeWhile_append_all (p : Char → Bool) :
    ∀ a b : List Char, (∀ c ∈ a, p c = true) →
      (a ++ b).takeWhile p = a ++ b.takeWhile p := by
  intro a
  induction a with
  | nil => intro b _; simp
  | cons x a' ih =>
    intro b h
    have hx := h x (List.mem_cons_self x a')
    rw [List.cons_append, List.takeWhile_cons_of_pos hx,
      ih b (fun c hc => h c (List.mem_cons_of_mem x hc)), List.cons_append]

theorem dropWhile_append_all (p : Char → Bool) :
    ∀ a b : List Char, (∀ c ∈ a, p c = true) →
      (a ++ b).dropWhile p = b.dropWhile p := by
  intro a
  induction a with
  | nil => intro b _; simp
  | cons x a' ih =>
    intro b h
    have hx := h x (List.mem_cons_self x a')
    rw [List.cons_append, List.dropWhile_cons_of_pos hx,
      ih b (fun c hc => h c (List.mem_cons_of_mem x hc))]

theorem dropWhile_head_false (p : Char → Bool) :
    ∀ (l : List Char) d t, l.dropWhile p = d :: t → p d = false := by
  intro l
  induction l with
  | nil => intro d t h; simp at h
  | cons x l' ih =>
    intro d t h
    by_cases hx : p x = true
    · rw [List.dropWhile_cons_of_pos hx] at h
      exact ih d t h
    · rw [List.dropWhile_cons_of_neg hx] at h
      injection h with h1 h2
      simp only [Bool.not_eq_true] at hx
      rw [← h1]
      exact hx

theorem quoteLabels_prefix :
    ∀ (n : Nat) (hp tl : List Char), hp.length ≤ n →
      (∀ c ∈ hp, isOpenB c = false) →
      ∃ u, quoteLabels (hp ++ tl) = hp ++ u := by
  intro n
  induction n with
  | zero =>
    intro hp tl hlen _
    have h0 : hp = [] := List.length_eq_zero.mp (Nat.le_zero.mp hlen)
    subst h0
    exact ⟨quoteLabels tl, rfl⟩
  | succ n ih =>
    intro hp tl hlen hopen
    cases hp with
    | nil => exact ⟨quoteLabels tl, rfl⟩
    | cons c hp' =>
      rw [List.cons_append, quoteLabels_cons]
      by_cases hw : isWc c = true
      · rw [if_pos hw]
        cases hrest : hp'.dropWhile isWc with
        | nil =>
          have hall : ∀ x ∈ hp', isWc x = true := by
            intro x hx
            have heq : hp'.takeWhile isWc = hp' := by
              have h2 := List.takeWhile_append_dropWhile isWc hp'
              rw [hrest, List.append_nil] at h2
              exact h2
            exact mem_takeWhile isWc hp' x (by rw [heq]; exact hx)
          rw [takeWhile_append_all isWc hp' tl hall,
            dropWhile_append_all isWc hp' tl hall]
          cases htl : tl.dropWhile isWc with
          | nil =>
            exact ⟨tl.takeWhile isWc, by rw [List.cons_append]⟩
          | cons b rest2 =>
            dsimp only
            by_cases hob : isOpenB b = true
            · rw [if_pos hob]
              cases hsl : splitLabel rest2 with
              | none =>
                dsimp only
                refine ⟨tl.takeWhile isWc ++ b :: quoteLabels rest2, ?_⟩
                simp [List.append_assoc]
              | some v =>
                obtain ⟨lbl, bb, rest3⟩ := v
                dsimp only
                have hrun : cleanId (c :: (hp' ++ tl.takeWhile isWc)) =
                    c :: (hp' ++ tl.takeWhile isWc) := by
                  refine cleanId_of_run _ ?_
                  intro x hx
                  rcases List.mem_cons.mp hx with h | h
                  · rw [h]; exact hw
                  · rcases List.mem_append.mp h with h | h
                    · exact hall x h
                    · exact mem_takeWhile isWc tl x h
                rw [hrun]
                refine ⟨tl.takeWhile isWc ++
                  '[' :: '"' :: escQ lbl ++ '"' :: ']' :: quoteLabels rest3, ?_⟩
                simp [List.append_assoc]
            · rw [if_neg hob]
              refine ⟨tl.takeWhile isWc ++ quoteLabels (b :: rest2), ?_⟩
              simp [List.append_assoc]
        | cons d w2' =>
          have hd : isWc d = false := dropWhile_head_false isWc hp' d w2' hrest
          have hdec : hp' = hp'.takeWhile isWc ++ (d :: w2') := by
            rw [← hrest, List.takeWhile_append_dropWhile]
          have hmemtw : ∀ x ∈ hp'.takeWhile isWc, isWc x = true :=
            fun x hx => mem_takeWhile isWc hp' x hx
          have htw : (hp' ++ tl).takeWhile isWc = hp'.takeWhile isWc := by
            conv_lhs => rw [hdec]
            rw [List.append_assoc, takeWhile_append_all isWc _ _ hmemtw,
              List.cons_append, List.takeWhile_cons_of_neg (by rw [hd]; simp),
              List.append_nil]
          have hdw : (hp' ++ tl).dropWhile isWc = d :: (w2' ++ tl) := by
            conv_lhs => rw [hdec]
            rw [List.append_assoc, dropWhile_append_all isWc _ _ hmemtw,
              List.cons_append, List.dropWhile_cons_of_neg (by rw [hd]; simp)]
          rw [htw, hdw]
          dsimp only
          have hdmem : d ∈ c :: hp' := by
            apply List.mem_cons_of_mem
            rw [hdec]
            exact List.mem_append_right _ (List.mem_cons_self d w2')
          have hobd : ¬(isOpenB d = true) := by
            rw [hopen d hdmem]; simp
          rw [if_neg hobd]
          have hlen2 : (d :: w2').length ≤ n := by
            have ha := dropWhile_length_le isWc hp'
            rw [hrest] at ha
            simp only [List.length_cons] at hlen ha ⊢
            omega
          have hopen2 : ∀ x ∈ d :: w2', isOpenB x = false := by
            intro x hx
            refine hopen x (List.mem_cons_of_mem c ?_)
            rw [hdec]
            exact List.mem_append_right _ hx
          obtain ⟨u, hu⟩ := ih (d :: w2') tl hlen2 hopen2
          rw [show d :: (w2' ++ tl) = (d :: w2') ++ tl from rfl, hu]
          refine ⟨u, ?_⟩
          conv_rhs => rw [hdec]
          simp [List.append_assoc]
      · rw [if_neg hw]
        have hlen2 : hp'.length ≤ n := by
          simp only [List.length_cons] at hlen; omega
        obtain ⟨u, hu⟩ := ih hp' tl hlen2
          (fun x hx => hopen x (List.mem_cons_of_mem c hx))
        rw [hu]
        exact ⟨u, rfl⟩

theorem stripSemis_prefix :
    ∀ (n : Nat) (hp tl : List Char), hp.length ≤ n → ';' ∉ hp →
      ∃ u, stripSemis (hp ++ tl) = hp ++ u := by
  intro n
  induction n with
  | zero =>
    intro hp tl hlen _
    have h0 : hp = [] := List.length_eq_zero.mp (Nat.le_zero.mp hlen)
    subst h0
    exact ⟨stripSemis tl, rfl⟩
  | succ n ih =>
    intro hp tl hlen hsemi
    cases hp with
    | nil => exact ⟨stripSemis tl, rfl⟩
    | cons c hp' =>
      have hlen2 : hp'.length ≤ n := by
        simp only [List.length_cons] at hlen; omega
      have hsemi2 : ';' ∉ hp' := fun hm => hsemi (List.mem_cons_of_mem c hm)
      have step : ∃ u, stripSemis (hp' ++ tl) = hp' ++ u :=
        ih hp' tl hlen2 hsemi2
      rw [List.cons_append, stripSemis_cons]
      by_cases hq : isCloserQ c = true
      · rw [if_pos hq]
        cases hrest : hp'.dropWhile isWs with
        | nil =>
          have hall : ∀ x ∈ hp', isWs x = true := by
            intro x hx
            have heq : hp'.takeWhile isWs = hp' := by
              have h2 := List.takeWhile_append_dropWhile isWs hp'
              rw [hrest, List.append_nil] at h2
              exact h2
            exact mem_takeWhile isWs hp' x (by rw [heq]; exact hx)
          rw [takeWhile_append_all isWs hp' tl hall,
            dropWhile_append_all isWs hp' tl hall]
          cases htl : tl.dropWhile isWs with
          | nil =>
            obtain ⟨u, hu⟩ := step
            rw [hu]
            exact ⟨u, rfl⟩
          | cons d rest2 =>
            dsimp only
            by_cases hd : d = ';'
            · rw [if_pos hd]
              refine ⟨tl.takeWhile isWs ++ stripSemis rest2, ?_⟩
              simp [List.append_assoc]
            · rw [if_neg hd]
              obtain ⟨u, hu⟩ := step
              rw [hu]
              exact ⟨u, rfl⟩
        | cons d w2' =>
          have hdws : isWs d = false := dropWhile_head_false isWs hp' d w2' hrest
          have hdec : hp' = hp'.takeWhile isWs ++ (d :: w2') := by
            rw [← hrest, List.takeWhile_append_dropWhile]
          have hmemtw : ∀ x ∈ hp'.takeWhile isWs, isWs x = true :=
            fun x hx => mem_takeWhile isWs hp' x hx
          have hdw : (hp' ++ tl).dropWhile isWs = d :: (w2' ++ tl) := by
            conv_lhs => rw [hdec]
            rw [List.append_assoc, dropWhile_append_all isWs _ _ hmemtw,
              List.cons_append,
              List.dropWhile_cons_of_neg (by rw [hdws]; simp)]
          rw [hdw]
          dsimp only
          have hdsemi : ¬(d = ';') := by
            intro hd
            apply hsemi
            apply List.mem_cons_of_mem
            rw [hdec]
            exact List.mem_append_right _ (hd ▸ List.mem_cons_self d w2')
          rw [if_neg hdsemi]
          obtain ⟨u, hu⟩ := step
          rw [hu]
          exact ⟨u, rfl⟩
      · rw [if_neg hq]
        obtain ⟨u, hu⟩ := step
        rw [hu]
        exact ⟨u, rfl⟩

theorem fixLine_first (l : List Char) : fixLine true l = l := by
  unfold fixLine
  rw [if_pos]
  simp

theorem splitNl_append_noNl :
    ∀ (hp tl : List Char) l0 ls, '\n' ∉ hp → splitNl tl = l0 :: ls →
      splitNl (hp ++ tl) = (hp ++ l0) :: ls := by
  intro hp
  induction hp with
  | nil => intro tl l0 ls _ h; simpa using h
  | cons c hp' ih =>
    intro tl l0 ls hnl h
    rw [List.cons_append]
    show splitNl (c :: (hp' ++ tl)) = ((c :: hp') ++ l0) :: ls
    unfold splitNl
    have hc : ¬(c = '\n') := fun hh => hnl (hh ▸ List.mem_cons_self c hp')
    rw [if_neg hc, ih tl l0 ls (fun hm => hnl (List.mem_cons_of_mem c hm)) h]
    rfl

theorem terminate_prefix (hp tl : List Char) (hnl : '\n' ∉ hp) :
    ∃ u, terminate (hp ++ tl) = hp ++ u := by
  unfold terminate
  cases hs : splitNl tl with
  | nil => exact absurd hs (splitNl_ne_nil tl)
  | cons l0 ls =>
    rw [splitNl_append_noNl hp tl l0 ls hnl hs]
    dsimp only
    rw [fixLine_first]
    cases hls : ls.map (fixLine false) with
    | nil => exact ⟨l0, rfl⟩
    | cons y ys =>
      refine ⟨l0 ++ '\n' :: joinNl (y :: ys), ?_⟩
      show (hp ++ l0) ++ '\n' :: joinNl (y :: ys) = _
      rw [List.append_assoc]

theorem normBody_prefix (hp tl : List Char)
    (hopen : ∀ c ∈ hp, isOpenB c = false) (hsemi : ';' ∉ hp)
    (hnl : '\n' ∉ hp) :
    ∃ u, normalizeBody (hp ++ tl) = hp ++ u := by
  unfold normalizeBody
  rw [sanitizeIds_identity]
  obtain ⟨u1, h1⟩ := quoteLabels_prefix hp.length hp tl (Nat.le_refl _) hopen
  rw [h1]
  obtain ⟨u2, h2⟩ := stripSemis_prefix hp.length hp u1 (Nat.le_refl _) hsemi
  rw [h2]
  exact terminate_prefix hp u2 hnl

theorem leadsWith_map_decomp (f : Char → Char) :
    ∀ (p s : List Char), leadsWith p (s.map f) = true →
      ∃ hp tl, s = hp ++ tl ∧ hp.map f = p := by
  intro p
  induction p with
  | nil => intro s _; exact ⟨[], s, rfl, rfl⟩
  | cons a p' ih =>
    intro s h
    cases s with
    | nil => simp [leadsWith] at h
    | cons c s' =>
      simp only [List.map_cons, leadsWith, Bool.and_eq_true,
        beq_iff_eq] at h
      obtain ⟨ha, h2⟩ := h
      obtain ⟨hp', tl, rfl, hmap⟩ := ih s' h2
      exact ⟨c :: hp', tl, rfl, by rw [List.map_cons, hmap, ha]⟩

theorem hdr_char_ok (c : Char)
    (h : Char.toLower c ∈ hdrFlow ∨ Char.toLower c ∈ hdrGraph) :
    isOpenB c = false ∧ c ≠ ';' ∧ c ≠ '\n' := by
  refine ⟨?_, ?_, ?_⟩
  · by_cases hb : isOpenB c = true
    · have hcases : (c = '[' ∨ c = '(') ∨ c = obrace := by
        simpa [isOpenB] using hb
      rcases hcases with (rfl | rfl) | rfl <;> revert h <;> decide
    · simpa using hb
  · rintro rfl; revert h; decide
  · rintro rfl; revert h; decide

/-- C1 (counterexample): on `graph TD\nA[Start] --> B` the cleanup keeps
the `graph` header, so the output does not start with the canonical
header even case-insensitively, and applying the cleanup to its own
output escalates the quote escaping in the label, so the passes are not
idempotent. -/
theorem C1_counterexample :
    cleanupFlowchart "graph TD\nA[Start] --> B".data =
      CleanResult.ok "graph TD\nA[\"Start\"] --> B;".data ∧
    leadsWith hdrFlow (lowerL "graph TD\nA[\"Start\"] --> B;".data) =
      false ∧
    cleanupFlowchart "graph TD\nA[\"Start\"] --> B;".data =
      CleanResult.ok "graph TD\nA[\"\\\"Start\\\"\"] --> B;".data ∧
    "graph TD\nA[\"\\\"Start\\\"\"] --> B;".data ≠
      "graph TD\nA[\"Start\"] --> B;".data := by
  exact ⟨by decide, by decide, by decide, by decide⟩

/-- C1 (amended): for every raw text containing at least one edge
connector token the cleanup succeeds, and its output starts,
case-insensitively, with a recognized graph-direction header
(`flowchart td` or `graph td`).  Idempotency does not hold and the
output header need not be the canonical one: a `graph td` header is kept
as is. -/
theorem C1_header_establishment (raw : List Char)
    (h : occurs edgeArrow raw = true ∨ occurs edgeDash raw = true) :
    ∃ d, cleanupFlowchart raw = CleanResult.ok d ∧
      (leadsWith hdrFlow (lowerL d) = true ∨
       leadsWith hdrGraph (lowerL d) = true) := by
  unfold cleanupFlowchart
  dsimp only
  by_cases hflow : leadsWith hdrFlow (lowerL (trimL (stripTrailFence (stripLeadFence (trimL raw))))) = true
  · refine ⟨normalizeBody (trimL (stripTrailFence (stripLeadFence (trimL raw)))), ?_, ?_⟩
    · rw [if_pos (by rw [hflow]; rfl)]
    · obtain ⟨hp, tl, hdecomp, hmap⟩ :=
        leadsWith_map_decomp Char.toLower hdrFlow (trimL (stripTrailFence (stripLeadFence (trimL raw)))) hflow
      have hchars : ∀ c ∈ hp, Char.toLower c ∈ hdrFlow := by
        intro c hc
        rw [← hmap]
        exact List.mem_map_of_mem _ hc
      obtain ⟨u, hu⟩ := normBody_prefix hp tl
        (fun c hc => (hdr_char_ok c (Or.inl (hchars c hc))).1)
        (fun hm => (hdr_char_ok ';' (Or.inl (hchars _ hm))).2.1 rfl)
        (fun hm => (hdr_char_ok '\n' (Or.inl (hchars _ hm))).2.2 rfl)
      left
      rw [hdecomp, hu]
      show leadsWith hdrFlow ((hp ++ u).map Char.toLower) = true
      rw [List.map_append]
      rw [show hp.map Char.toLower = hdrFlow from hmap]
      exact leadsWith_append_self hdrFlow (u.map Char.toLower)
  · by_cases hgraph : leadsWith hdrGraph (lowerL (trimL (stripTrailFence (stripLeadFence (trimL raw))))) = true
    · refine ⟨normalizeBody (trimL (stripTrailFence (stripLeadFence (trimL raw)))), ?_, ?_⟩
      · rw [if_pos (by rw [hgraph]; simp)]
      · obtain ⟨hp, tl, hdecomp, hmap⟩ :=
          leadsWith_map_decomp Char.toLower hdrGraph (trimL (stripTrailFence (stripLeadFence (trimL raw)))) hgraph
        have hchars : ∀ c ∈ hp, Char.toLower c ∈ hdrGraph := by
          intro c hc
          rw [← hmap]
          exact List.mem_map_of_mem _ hc
        obtain ⟨u, hu⟩ := normBody_prefix hp tl
          (fun c hc => (hdr_char_ok c (Or.inr (hchars c hc))).1)
          (fun hm => (hdr_char_ok ';' (Or.inr (hchars _ hm))).2.1 rfl)
          (fun hm => (hdr_char_ok '\n' (Or.inr (hchars _ hm))).2.2 rfl)
        right
        rw [hdecomp, hu]
        show leadsWith hdrGraph ((hp ++ u).map Char.toLower) = true
        rw [List.map_append]
        rw [show hp.map Char.toLower = hdrGraph from hmap]
        exact leadsWith_append_self hdrGraph (u.map Char.toLower)
    · have hcond1 :
          ¬((leadsWith hdrFlow (lowerL (trimL (stripTrailFence (stripLeadFence (trimL raw))))) ||
             leadsWith hdrGraph (lowerL (trimL (stripTrailFence (stripLeadFence (trimL raw)))))) = true) := by
        simp only [Bool.not_eq_true] at hflow hgraph
        rw [hflow, hgraph]
        simp
      rw [if_neg hcond1]
      have hedge : (occurs edgeArrow (trimL (stripTrailFence (stripLeadFence (trimL raw)))) ||
          occurs edgeDash (trimL (stripTrailFence (stripLeadFence (trimL raw))))) = true := by
        rcases h with h | h
        · rw [occurs_edge_strip edgeArrow raw (Or.inl rfl) h]
          simp
        · rw [occurs_edge_strip edgeDash raw (Or.inr rfl) h]
          simp
      rw [if_pos hedge]
      obtain ⟨u, hu⟩ := normBody_prefix hdrCanon ('\n' :: (trimL (stripTrailFence (stripLeadFence (trimL raw)))))
        (by decide) (by decide) (by decide)
      refine ⟨_, rfl, Or.inl ?_⟩
      rw [show hdrCanon ++ '\n' :: (trimL (stripTrailFence (stripLeadFence (trimL raw)))) =
        hdrCanon ++ ('\n' :: (trimL (stripTrailFence (stripLeadFence (trimL raw))))) from rfl, hu]
      show leadsWith hdrFlow ((hdrCanon ++ u).map Char.toLower) = true
      rw [List.map_append]
      rw [show hdrCanon.map Char.toLower = hdrFlow from by decide]
      exact leadsWith_append_self hdrFlow (u.map Char.toLower)

/-- C1 (amended, witness): the lemma applied to a concrete raw text with
an edge connector and no header. -/
theorem C1_header_establishment_witness :
    ∃ d, cleanupFlowchart "A --> B".data = CleanResult.ok d ∧
      (leadsWith hdrFlow (lowerL d) = true ∨
       leadsWith hdrGraph (lowerL d) = true) :=
  C1_header_establishment "A --> B".data (Or.inl (by decide))

theorem ws_cases (c : Char) (h : isWs c = true) :
    ((((c = ' ' ∨ c = '\t') ∨ c = '\n') ∨ c = '\r') ∨ c = Char.ofNat 11) ∨
    c = Char.ofNat 12 := by
  simpa [isWs] using h

theorem wc_not_ws (c : Char) (h : isWc c = true) : isWs c = false := by
  by_cases hw : isWs c = true
  · rcases ws_cases c hw with ((((rfl | rfl) | rfl) | rfl) | rfl) | rfl <;>
      (rw [show isWc _ = false from by decide] at h; cases h)
  · simpa using hw

theorem open_not_wc (b : Char) (h : isOpenB b = true) : isWc b = false := by
  have hcases : (b = '[' ∨ b = '(') ∨ b = obrace := by
    simpa [isOpenB] using h
  rcases hcases with (rfl | rfl) | rfl <;> decide

theorem quoteLabels_nonw_cons (c : Char) (t : List Char)
    (hc : isWc c = false) : quoteLabels (c :: t) = c :: quoteLabels t := by
  rw [quoteLabels_cons, if_neg (by rw [hc]; simp)]

theorem quoteLabels_id_of_nonw :
    ∀ xs : List Char, (∀ c ∈ xs, isWc c = false) → quoteLabels xs = xs := by
  intro xs
  induction xs with
  | nil => intro _; rfl
  | cons c cs ih =>
    intro h
    rw [quoteLabels_nonw_cons c cs (h c (List.mem_cons_self c cs)),
      ih (fun x hx => h x (List.mem_cons_of_mem c hx))]

theorem quoteLabels_run_skip (r : List Char) (b : Char) (t : List Char)
    (hr : ∀ c ∈ r, isWc c = true) (hrne : r ≠ [])
    (hob : isOpenB b = false) (hbw : isWc b = false) :
    quoteLabels (r ++ b :: t) = r ++ quoteLabels (b :: t) := by
  cases r with
  | nil => exact absurd rfl hrne
  | cons c r' =>
    rw [List.cons_append, quoteLabels_cons,
      if_pos (hr c (List.mem_cons_self c r'))]
    have hr' : ∀ x ∈ r', isWc x = true :=
      fun x hx => hr x (List.mem_cons_of_mem c hx)
    have htw : (r' ++ b :: t).takeWhile isWc = r' := by
      rw [takeWhile_append_all isWc r' _ hr',
        List.takeWhile_cons_of_neg (by rw [hbw]; simp), List.append_nil]
    have hdw : (r' ++ b :: t).dropWhile isWc = b :: t := by
      rw [dropWhile_append_all isWc r' _ hr',
        List.dropWhile_cons_of_neg (by rw [hbw]; simp)]
    rw [htw, hdw]
    dsimp only
    rw [if_neg (by rw [hob]; simp)]

theorem splitLabel_clean :
    ∀ (lbl : List Char) (cb : Char) (rest : List Char),
      (∀ c ∈ lbl, isCloseB c = false ∧ c ≠ '\n') → isCloseB cb = true →
      splitLabel (lbl ++ cb :: rest) = some (lbl, cb, rest) := by
  intro lbl
  induction lbl with
  | nil =>
    intro cb rest _ hcb
    show splitLabel (cb :: rest) = _
    unfold splitLabel
    rw [if_pos hcb]
  | cons c cs ih =>
    intro cb rest h hcb
    have hc := h c (List.mem_cons_self c cs)
    rw [List.cons_append]
    show splitLabel (c :: (cs ++ cb :: rest)) = _
    unfold splitLabel
    rw [if_neg (by rw [hc.1]; simp), if_neg hc.2,
      ih cb rest (fun x hx => h x (List.mem_cons_of_mem c hx)) hcb]

theorem quoteLabels_match (id lbl rest : List Char) (ob cb : Char)
    (hid : id ≠ []) (hidw : ∀ c ∈ id, isWc c = true)
    (hob : isOpenB ob = true) (hcb : isCloseB cb = true)
    (hlbl : ∀ c ∈ lbl, isCloseB c = false ∧ c ≠ '\n') :
    quoteLabels (id ++ ob :: (lbl ++ cb :: rest)) =
      id ++ '[' :: '"' :: escQ lbl ++ '"' :: ']' :: quoteLabels rest := by
  cases id with
  | nil => exact absurd rfl hid
  | cons c id' =>
    rw [List.cons_append, quoteLabels_cons,
      if_pos (hidw c (List.mem_cons_self c id'))]
    have hid' : ∀ x ∈ id', isWc x = true :=
      fun x hx => hidw x (List.mem_cons_of_mem c hx)
    have hobw : isWc ob = false := open_not_wc ob hob
    have htw : (id' ++ ob :: (lbl ++ cb :: rest)).takeWhile isWc = id' := by
      rw [takeWhile_append_all isWc id' _ hid',
        List.takeWhile_cons_of_neg (by rw [hobw]; simp), List.append_nil]
    have hdw : (id' ++ ob :: (lbl ++ cb :: rest)).dropWhile isWc =
        ob :: (lbl ++ cb :: rest) := by
      rw [dropWhile_append_all isWc id' _ hid',
        List.dropWhile_cons_of_neg (by rw [hobw]; simp)]
    rw [htw, hdw]
    dsimp only
    rw [if_pos hob, splitLabel_clean lbl cb rest hlbl hcb]
    dsimp only
    rw [cleanId_of_run (c :: id') hidw]

theorem escQ_length : ∀ lbl : List Char, lbl.length ≤ (escQ lbl).length := by
  intro lbl
  induction lbl with
  | nil => simp [escQ]
  | cons c cs ih =>
    unfold escQ
    by_cases hc : c = '"'
    · rw [if_pos hc]; simp; omega
    · rw [if_neg hc]; simp; omega

theorem countQ_cons (c : Char) (cs : List Char) :
    countQ (c :: cs) = (if c = '"' then 1 else 0) + countQ cs := rfl

theorem escQ_countQ : ∀ lbl : List Char, countQ (escQ lbl) = countQ lbl := by
  intro lbl
  induction lbl with
  | nil => rfl
  | cons c cs ih =>
    show countQ (if c = '"' then '\\' :: '"' :: escQ cs else c :: escQ cs) =
      countQ (c :: cs)
    by_cases hc : c = '"'
    · rw [if_pos hc, countQ_cons, countQ_cons, countQ_cons, ih, hc]
      rw [if_neg (show ¬('\\' = '"') from by decide)]
      simp
    · rw [if_neg hc, countQ_cons, countQ_cons, ih]

theorem escQ_id_of_noquote :
    ∀ lbl : List Char, (∀ c ∈ lbl, c ≠ '"') → escQ lbl = lbl := by
  intro lbl
  induction lbl with
  | nil => intro _; rfl
  | cons c cs ih =>
    intro h
    unfold escQ
    rw [if_neg (h c (List.mem_cons_self c cs)),
      ih (fun x hx => h x (List.mem_cons_of_mem c hx))]

set_option maxRecDepth 100000 in
/-- C3 (counterexample): the label `Hi` contains no whitespace and none
of the punctuation set the source tests for, yet it is quoted; and a
101-character label passes through untruncated. -/
theorem C3_counterexample :
    needsQuoting "Hi".data = false ∧
    cleanupFlowchart "flowchart TD\nA[Hi] --> B".data =
      CleanResult.ok "flowchart TD\nA[\"Hi\"] --> B;".data ∧
    cleanupFlowchart ("flowchart TD\nA[".data ++
        List.replicate 101 'x' ++ "] --> B".data) =
      CleanResult.ok ("flowchart TD\nA[\"".data ++
        List.replicate 101 'x' ++ "\"] --> B;".data) ∧
    100 < (List.replicate 101 'x').length := by
  refine ⟨by decide, by decide, by decide, by decide⟩

/-- C3 (amended): the label pass rewrites every match
`id⟨open⟩label⟨close⟩` to the square-bracket quoted form `id["label"]`
with embedded double quotes escaped — the quoting is unconditional, not
only for labels containing whitespace or punctuation — and the label is
carried over in full: escaping never shortens it and preserves every
double quote; no length truncation is performed. -/
theorem C3_label_quoting (id lbl rest : List Char) (ob cb : Char)
    (hid : id ≠ []) (hidw : ∀ c ∈ id, isWc c = true)
    (hob : isOpenB ob = true) (hcb : isCloseB cb = true)
    (hlbl : ∀ c ∈ lbl, isCloseB c = false ∧ c ≠ '\n') :
    quoteLabels (id ++ ob :: (lbl ++ cb :: rest)) =
      id ++ '[' :: '"' :: escQ lbl ++ '"' :: ']' :: quoteLabels rest ∧
    lbl.length ≤ (escQ lbl).length ∧
    countQ (escQ lbl) = countQ lbl :=
  ⟨quoteLabels_match id lbl rest ob cb hid hidw hob hcb hlbl,
   escQ_length lbl, escQ_countQ lbl⟩

/-- C3 (amended, witness): the quoting equation at the concrete match
`A[Hi]`, whose label needs no quoting under the source's own test. -/
theorem C3_label_quoting_witness :
    quoteLabels ("A".data ++ '[' :: ("Hi".data ++ ']' :: [])) =
      "A".data ++ '[' :: '"' :: escQ "Hi".data ++ '"' :: ']' ::
        quoteLabels [] ∧
    ("Hi".data).length ≤ (escQ "Hi".data).length ∧
    countQ (escQ "Hi".data) = countQ "Hi".data :=
  C3_label_quoting "A".data "Hi".data [] '[' ']' (by decide) (by decide)
    (by decide) (by decide) (by decide)

theorem last_append_one : ∀ (l : List Char) (a : Char),
    (l ++ [a]).getLast? = some a := by
  intro l
  induction l with
  | nil => intro a; rfl
  | cons c cs ih =>
    intro a
    rw [List.cons_append]
    cases hcs : cs ++ [a] with
    | nil => simp at hcs
    | cons d t =>
      have hstep : (c :: d :: t).getLast? = (d :: t).getLast? := rfl
      rw [hstep, ← hcs]
      exact ih a

theorem dropLast_append_one : ∀ (l : List Char) (a : Char),
    (l ++ [a]).dropLast = l := by
  intro l a
  simp

theorem trimRight_of_last (X : List Char) (c : Char) (t : List Char)
    (h : X.reverse = c :: t) (hc : isWs c = false) : trimRight X = X := by
  unfold trimRight
  rw [h, List.dropWhile_cons_of_neg (by rw [hc]; simp), ← h,
    List.reverse_reverse]

theorem dropWhile_append_headfalse (p : Char → Bool) :
    ∀ (xs : List Char) (y : Char) (ys : List Char), p y = false →
      (xs ++ y :: ys).dropWhile p = xs.dropWhile p ++ y :: ys := by
  intro xs
  induction xs with
  | nil =>
    intro y ys hy
    rw [List.nil_append, List.dropWhile_cons_of_neg (by rw [hy]; simp)]
    rfl
  | cons x xs' ih =>
    intro y ys hy
    rw [List.cons_append]
    by_cases hx : p x = true
    · rw [List.dropWhile_cons_of_pos hx, List.dropWhile_cons_of_pos hx,
        ih y ys hy]
    · rw [List.dropWhile_cons_of_neg hx, List.dropWhile_cons_of_neg hx,
        List.cons_append]

theorem endsSemi_trimL_append_semi (X : List Char) :
    endsSemi (trimL (X ++ [';'])) = true := by
  unfold trimL trimLeft
  rw [dropWhile_append_headfalse isWs X ';' [] (by decide)]
  have hrev : (X.dropWhile isWs ++ [';']).reverse =
      ';' :: (X.dropWhile isWs).reverse := by simp
  rw [trimRight_of_last _ ';' _ hrev (by decide)]
  unfold endsSemi
  rw [last_append_one]
  rfl

theorem fixLine_good (l : List Char) : goodLine (fixLine false l) = true := by
  unfold fixLine
  dsimp only
  by_cases h1 : (trimL l).isEmpty = true
  · rw [if_pos (by rw [h1]; simp)]
    unfold goodLine
    rw [h1]
    simp
  · by_cases h2 : startsPercPerc (trimL l) = true
    · rw [if_pos (by rw [h2]; simp)]
      unfold goodLine
      rw [h2]
      simp
    · by_cases h3 : endsSemi (trimL l) = true
      · rw [if_pos (by rw [h3]; simp)]
        unfold goodLine
        rw [h3]
        simp
      · simp only [Bool.not_eq_true] at h1 h2 h3
        rw [if_neg (by rw [h1, h2, h3]; simp)]
        by_cases h4 :
            (isLinkLine (trimL l) && !isStrictNodeDef (trimL l)) = true
        · rw [if_pos h4]
          unfold goodLine
          rw [endsSemi_trimL_append_semi (trimRight l)]
          simp
        · rw [if_neg h4]
          unfold goodLine
          by_cases hL : isLinkLine (trimL l) = true
          · have hS : isStrictNodeDef (trimL l) = true := by
              by_contra hS
              simp only [Bool.not_eq_true] at hS
              rw [hL, hS] at h4
              simp at h4
            rw [hS]
            simp
          · simp only [Bool.not_eq_true] at hL
            rw [hL]
            simp

theorem splitNl_noNl (s : List Char) (h : '\n' ∉ s) : splitNl s = [s] := by
  induction s with
  | nil => rfl
  | cons c cs ih =>
    unfold splitNl
    rw [if_neg (fun hc => h (by rw [← hc]; exact List.mem_cons_self c cs)),
      ih (fun hm => h (List.mem_cons_of_mem c hm))]

theorem splitNl_mem_noNl :
    ∀ (s : List Char) L, L ∈ splitNl s → '\n' ∉ L := by
  intro s
  induction s with
  | nil =>
    intro L hL
    simp [splitNl] at hL
    rw [hL]
    simp
  | cons c cs ih =>
    intro L hL
    unfold splitNl at hL
    by_cases hc : c = '\n'
    · rw [if_pos hc] at hL
      rcases List.mem_cons.mp hL with h | h
      · rw [h]; simp
      · exact ih L h
    · rw [if_neg hc] at hL
      cases hs : splitNl cs with
      | nil => exact absurd hs (splitNl_ne_nil cs)
      | cons l ls =>
        rw [hs] at hL
        dsimp only at hL
        rcases List.mem_cons.mp hL with h | h
        · rw [h]
          intro hmm
          rcases List.mem_cons.mp hmm with h2 | h2
          · exact hc h2.symm
          · exact ih l (by rw [hs]; exact List.mem_cons_self l ls) h2
        · exact ih L (by rw [hs]; exact List.mem_cons_of_mem l h)

theorem joinNl_splitNl_inv :
    ∀ ls : List (List Char), ls ≠ [] → (∀ L ∈ ls, '\n' ∉ L) →
      splitNl (joinNl ls) = ls := by
  intro ls
  induction ls with
  | nil => intro h _; exact absurd rfl h
  | cons l ls' ih =>
    intro _ hnl
    cases ls' with
    | nil =>
      show splitNl l = [l]
      exact splitNl_noNl l (hnl l (List.mem_cons_self l []))
    | cons l2 ls'' =>
      show splitNl (l ++ '\n' :: joinNl (l2 :: ls'')) = l :: l2 :: ls''
      have hrec : splitNl (joinNl (l2 :: ls'')) = l2 :: ls'' :=
        ih (by simp) (fun L hL => hnl L (List.mem_cons_of_mem l hL))
      have hstep : splitNl ('\n' :: joinNl (l2 :: ls'')) =
          [] :: l2 :: ls'' := by
        unfold splitNl
        rw [if_pos rfl, hrec]
      rw [splitNl_append_noNl l _ [] (l2 :: ls'')
        (hnl l (List.mem_cons_self l _)) hstep, List.append_nil]

theorem trimRight_subset (l : List Char) : ∀ x ∈ trimRight l, x ∈ l := by
  intro x hx
  have h2 := trimRight_append l
  rw [← h2]
  exact List.mem_append_left _ hx

theorem fixLine_noNl (b : Bool) (l : List Char) (h : '\n' ∉ l) :
    '\n' ∉ fixLine b l := by
  unfold fixLine
  dsimp only
  by_cases h1 : (b || (trimL l).isEmpty || startsPercPerc (trimL l) ||
      endsSemi (trimL l)) = true
  · rw [if_pos h1]; exact h
  · rw [if_neg h1]
    by_cases h2 : (isLinkLine (trimL l) && !isStrictNodeDef (trimL l)) = true
    · rw [if_pos h2]
      intro hmem
      rcases List.mem_append.mp hmem with hm | hm
      · exact h (trimRight_subset l '\n' hm)
      · simp at hm
    · rw [if_neg h2]; exact h

theorem terminate_lines_good (s : List Char) :
    ∀ L ∈ (splitNl (terminate s)).tail, goodLine L = true := by
  unfold terminate
  cases hs : splitNl s with
  | nil => exact absurd hs (splitNl_ne_nil s)
  | cons l0 ls =>
    dsimp only
    have hnl0 : '\n' ∉ l0 :=
      splitNl_mem_noNl s l0 (by rw [hs]; exact List.mem_cons_self l0 ls)
    have hnls : ∀ L ∈ ls, '\n' ∉ L := fun L hL =>
      splitNl_mem_noNl s L (by rw [hs]; exact List.mem_cons_of_mem l0 hL)
    rw [fixLine_first]
    have hinv := joinNl_splitNl_inv (l0 :: ls.map (fixLine false))
      (by simp) ?_
    · rw [hinv]
      intro L hL
      simp only [List.tail_cons] at hL
      obtain ⟨l, hl, rfl⟩ := List.mem_map.mp hL
      exact fixLine_good l
    · intro L hL
      rcases List.mem_cons.mp hL with h | h
      · rw [h]; exact hnl0
      · obtain ⟨l, hl, rfl⟩ := List.mem_map.mp h
        exact fixLine_noNl false l (hnls l hl)

theorem ws_not_wc (c : Char) (h : isWs c = true) : isWc c = false := by
  by_cases hw : isWc c = true
  · rw [wc_not_ws c hw] at h
    cases h
  · simpa using hw

theorem stripSemis_skip :
    ∀ (n : Nat) (xs : List Char) (c0 : Char) (t' : List Char),
      xs.length ≤ n → ';' ∉ xs → isWs c0 = false → c0 ≠ ';' →
      stripSemis (xs ++ c0 :: t') = xs ++ stripSemis (c0 :: t') := by
  intro n
  induction n with
  | zero =>
    intro xs c0 t' hlen _ _ _
    have h0 : xs = [] := List.length_eq_zero.mp (Nat.le_zero.mp hlen)
    subst h0
    rfl
  | succ n ih =>
    intro xs c0 t' hlen hsemi hws hc0
    cases xs with
    | nil => rfl
    | cons c xs' =>
      have hlen2 : xs'.length ≤ n := by
        simp only [List.length_cons] at hlen; omega
      have hsemi2 : ';' ∉ xs' := fun hm => hsemi (List.mem_cons_of_mem c hm)
      have hrec := ih xs' c0 t' hlen2 hsemi2 hws hc0
      rw [List.cons_append, stripSemis_cons]
      by_cases hq : isCloserQ c = true
      · rw [if_pos hq]
        cases hrest : xs'.dropWhile isWs with
        | nil =>
          have hall : ∀ x ∈ xs', isWs x = true := by
            intro x hx
            have heq : xs'.takeWhile isWs = xs' := by
              have h2 := List.takeWhile_append_dropWhile isWs xs'
              rw [hrest, List.append_nil] at h2
              exact h2
            exact mem_takeWhile isWs xs' x (by rw [heq]; exact hx)
          have hdw : (xs' ++ c0 :: t').dropWhile isWs = c0 :: t' := by
            rw [dropWhile_append_all isWs xs' _ hall,
              List.dropWhile_cons_of_neg (by rw [hws]; simp)]
          rw [hdw]
          dsimp only
          rw [if_neg hc0, hrec, List.cons_append]
        | cons d w2' =>
          have hdws : isWs d = false :=
            dropWhile_head_false isWs xs' d w2' hrest
          have hdec : xs' = xs'.takeWhile isWs ++ (d :: w2') := by
            rw [← hrest, List.takeWhile_append_dropWhile]
          have hmemtw : ∀ x ∈ xs'.takeWhile isWs, isWs x = true :=
            fun x hx => mem_takeWhile isWs xs' x hx
          have hdw : (xs' ++ c0 :: t').dropWhile isWs =
              d :: (w2' ++ c0 :: t') := by
            conv_lhs => rw [hdec]
            rw [List.append_assoc, dropWhile_append_all isWs _ _ hmemtw,
              List.cons_append,
              List.dropWhile_cons_of_neg (by rw [hdws]; simp)]
          rw [hdw]
          dsimp only
          have hdsemi : ¬(d = ';') := by
            intro hd
            apply hsemi
            apply List.mem_cons_of_mem
            rw [hdec]
            refine List.mem_append_right _ ?_
            rw [hd]
            exact List.mem_cons_self ';' w2'
          rw [if_neg hdsemi, hrec, List.cons_append]
      · rw [if_neg hq, hrec, List.cons_append]

theorem trimRight_append_allws (X w : List Char)
    (hw : ∀ c ∈ w, isWs c = true) : trimRight (X ++ w) = trimRight X := by
  unfold trimRight
  rw [List.reverse_append,
    dropWhile_append_all isWs w.reverse X.reverse
      (fun c hc => hw c (List.mem_reverse.mp hc))]

theorem trimL_noop (s : List Char) (c1 c2 : Char) (t1 t2 : List Char)
    (h1 : s = c1 :: t1) (hw1 : isWs c1 = false)
    (h2 : s.reverse = c2 :: t2) (hw2 : isWs c2 = false) : trimL s = s := by
  unfold trimL trimLeft
  rw [h1, List.dropWhile_cons_of_neg (by rw [hw1]; simp), ← h1]
  exact trimRight_of_last s c2 t2 h2 hw2

theorem leadsWith_fence_ne (c : Char) (t : List Char)
    (hc : (btick == c) = false) : leadsWith fence (c :: t) = false := by
  show (btick == c && leadsWith [btick, btick] t) = false
  rw [hc]
  simp

theorem strict_of_quoted_decl (id lbl : List Char)
    (hid : id ≠ []) (hidw : ∀ c ∈ id, isWc c = true)
    (hlblnl : ∀ c ∈ lbl, c ≠ '\n') :
    isStrictNodeDef (id ++ '[' :: '"' :: (lbl ++ '"' :: [']'])) = true := by
  cases id with
  | nil => exact absurd rfl hid
  | cons c id' =>
    have hcW : isWc c = true := hidw c (List.mem_cons_self c id')
    unfold isStrictNodeDef
    have hds : ((c :: id') ++ '[' :: '"' :: (lbl ++ '"' :: [']'])).dropWhile
        isWs = (c :: id') ++ '[' :: '"' :: (lbl ++ '"' :: [']']) := by
      rw [List.cons_append,
        List.dropWhile_cons_of_neg (by rw [wc_not_ws c hcW]; simp)]
    have htw : ((c :: id') ++ '[' :: '"' :: (lbl ++ '"' :: [']'])).takeWhile
        isWc = c :: id' := by
      rw [takeWhile_append_all isWc _ _ hidw,
        List.takeWhile_cons_of_neg (by decide), List.append_nil]
    rw [hds, htw, List.drop_left (c :: id')]
    rw [if_neg (by simp)]
    unfold strictTail
    have hmid : ('[' :: '"' :: (lbl ++ '"' :: [']'])).dropWhile isWs =
        '[' :: '"' :: (lbl ++ '"' :: [']']) :=
      List.dropWhile_cons_of_neg (by decide)
    rw [hmid]
    dsimp only
    have hy : bracketTail '[' ('"' :: (lbl ++ '"' :: [']'])) = true := by
      unfold bracketTail
      have hshape : '"' :: (lbl ++ '"' :: [']']) =
          ('"' :: (lbl ++ ['"'])) ++ [']'] := by
        simp
      rw [hshape]
      have htr : trimRight (('"' :: (lbl ++ ['"'])) ++ [']']) =
          ('"' :: (lbl ++ ['"'])) ++ [']'] := by
        refine trimRight_of_last _ ']' (('"' :: (lbl ++ ['"'])).reverse) ?_
          (by decide)
        rw [List.reverse_append]
        rfl
      rw [htr, last_append_one, dropLast_append_one]
      have hnn : noNl ('"' :: (lbl ++ ['"'])) = true := by
        unfold noNl
        rw [List.all_eq_true]
        intro x hx
        rcases List.mem_cons.mp hx with h | h
        · rw [h]; decide
        · rcases List.mem_append.mp h with h | h
          · have h2 := hlblnl x h
            simpa using h2
          · rcases List.mem_cons.mp h with h | h
            · rw [h]; decide
            · simp at h
      rw [hnn]
      decide
    rw [hy]
    rw [show isOpenB '[' = true from by decide]
    simp

theorem percperc_false_of_wc (c : Char) (t : List Char)
    (hc : isWc c = true) : startsPercPerc (c :: t) = false := by
  unfold startsPercPerc
  show (('%' == c) && leadsWith ['%'] t) = false
  have : ('%' == c) = false := by
    by_cases h : c = '%'
    · rw [h] at hc
      exact absurd hc (by decide)
    · exact beq_eq_false_iff_ne.mpr (fun hh => h hh.symm)
  rw [this]
  simp

theorem fixLine_semi_noop (b : Bool) (l : List Char)
    (h : endsSemi (trimL l) = true) : fixLine b l = l := by
  unfold fixLine
  dsimp only
  rw [if_pos (by rw [h]; simp)]

theorem cleanup_ok_shape (raw d : List Char)
    (h : cleanupFlowchart raw = CleanResult.ok d) : ∃ s, d = terminate s := by
  unfold cleanupFlowchart at h
  dsimp only at h
  by_cases h1 : (leadsWith hdrFlow (lowerL (trimL (stripTrailFence
      (stripLeadFence (trimL raw))))) || leadsWith hdrGraph (lowerL (trimL
      (stripTrailFence (stripLeadFence (trimL raw)))))) = true
  · rw [if_pos h1] at h
    injection h with h2
    exact ⟨stripSemis (quoteLabels (sanitizeIds (trimL (stripTrailFence
      (stripLeadFence (trimL raw)))))), by rw [← h2]; rfl⟩
  · rw [if_neg h1] at h
    by_cases h2 : (occurs edgeArrow (trimL (stripTrailFence
        (stripLeadFence (trimL raw)))) || occurs edgeDash (trimL
        (stripTrailFence (stripLeadFence (trimL raw))))) = true
    · rw [if_pos h2] at h
      injection h with h3
      exact ⟨stripSemis (quoteLabels (sanitizeIds (hdrCanon ++ '\n' ::
        trimL (stripTrailFence (stripLeadFence (trimL raw)))))),
        by rw [← h3]; rfl⟩
    · rw [if_neg h2] at h
      exact CleanResult.noConfusion h

theorem cleanup_nodedecl (id lbl w : List Char)
    (hid : id ≠ []) (hidw : ∀ c ∈ id, isWc c = true)
    (hlbl : ∀ c ∈ lbl, isCloseB c = false ∧ c ≠ '\n' ∧ c ≠ ';' ∧ c ≠ '"')
    (hw : ∀ c ∈ w, isWs c = true ∧ c ≠ '\n') :
    cleanupFlowchart
        (hdrCanon ++ '\n' :: (id ++ '[' :: (lbl ++ ']' :: (w ++ [';'])))) =
      CleanResult.ok
        (hdrCanon ++ '\n' ::
          (id ++ '[' :: '"' :: (lbl ++ '"' :: ']' :: w))) ∧
    endsSemi (trimL (id ++ '[' :: '"' :: (lbl ++ '"' :: ']' :: w))) =
      false := by
  have hwall : ∀ x ∈ w, isWs x = true := fun x hx => (hw x hx).1
  have hIcons : hdrCanon ++ '\n' ::
        (id ++ '[' :: (lbl ++ ']' :: (w ++ [';']))) =
      'f' :: ("lowchart TD".data ++
        ('\n' :: (id ++ '[' :: (lbl ++ ']' :: (w ++ [';']))))) := rfl
  have hshapeI : hdrCanon ++ '\n' ::
        (id ++ '[' :: (lbl ++ ']' :: (w ++ [';']))) =
      (hdrCanon ++ '\n' :: (id ++ '[' :: (lbl ++ ']' :: w))) ++ [';'] := by
    simp
  have hrevI : (hdrCanon ++ '\n' ::
        (id ++ '[' :: (lbl ++ ']' :: (w ++ [';'])))).reverse =
      ';' :: (hdrCanon ++ '\n' ::
        (id ++ '[' :: (lbl ++ ']' :: w))).reverse := by
    rw [hshapeI, List.reverse_append]
    rfl
  have htrimI : trimL (hdrCanon ++ '\n' ::
        (id ++ '[' :: (lbl ++ ']' :: (w ++ [';'])))) =
      hdrCanon ++ '\n' :: (id ++ '[' :: (lbl ++ ']' :: (w ++ [';']))) :=
    trimL_noop _ 'f' ';' _ _ hIcons (by decide) hrevI (by decide)
  have hslf : stripLeadFence (hdrCanon ++ '\n' ::
        (id ++ '[' :: (lbl ++ ']' :: (w ++ [';'])))) =
      hdrCanon ++ '\n' :: (id ++ '[' :: (lbl ++ ']' :: (w ++ [';']))) := by
    have hne : leadsWith fence (hdrCanon ++ '\n' ::
        (id ++ '[' :: (lbl ++ ']' :: (w ++ [';'])))) = false := by
      rw [hIcons]
      exact leadsWith_fence_ne 'f' _ (by decide)
    unfold stripLeadFence
    rw [if_neg (by rw [hne]; simp)]
  have hstf : stripTrailFence (hdrCanon ++ '\n' ::
        (id ++ '[' :: (lbl ++ ']' :: (w ++ [';'])))) =
      hdrCanon ++ '\n' :: (id ++ '[' :: (lbl ++ ']' :: (w ++ [';']))) := by
    have hne : leadsWith fence (hdrCanon ++ '\n' ::
        (id ++ '[' :: (lbl ++ ']' :: (w ++ [';'])))).reverse = false := by
      rw [hrevI]
      exact leadsWith_fence_ne ';' _ (by decide)
    unfold stripTrailFence
    rw [if_neg (by rw [hne]; simp)]
  have hhdr : leadsWith hdrFlow (lowerL (hdrCanon ++ '\n' ::
      (id ++ '[' :: (lbl ++ ']' :: (w ++ [';']))))) = true := by
    show leadsWith hdrFlow (List.map Char.toLower (hdrCanon ++
      ('\n' :: (id ++ '[' :: (lbl ++ ']' :: (w ++ [';'])))))) = true
    rw [List.map_append,
      show List.map Char.toLower hdrCanon = hdrFlow from by decide]
    exact leadsWith_append_self hdrFlow _
  have hq : quoteLabels (hdrCanon ++ '\n' ::
        (id ++ '[' :: (lbl ++ ']' :: (w ++ [';'])))) =
      hdrCanon ++ '\n' ::
        (id ++ '[' :: '"' :: (lbl ++ '"' :: ']' :: (w ++ [';']))) := by
    have h1 : quoteLabels (hdrCanon ++ '\n' ::
          (id ++ '[' :: (lbl ++ ']' :: (w ++ [';'])))) =
        "flowchart".data ++ quoteLabels (' ' :: ("TD".data ++
          ('\n' :: (id ++ '[' :: (lbl ++ ']' :: (w ++ [';'])))))) := by
      show quoteLabels ("flowchart".data ++ (' ' :: ("TD".data ++
        ('\n' :: (id ++ '[' :: (lbl ++ ']' :: (w ++ [';']))))))) = _
      exact quoteLabels_run_skip "flowchart".data ' ' _
        (by decide) (by decide) (by decide) (by decide)
    have h2 : quoteLabels (' ' :: ("TD".data ++
          ('\n' :: (id ++ '[' :: (lbl ++ ']' :: (w ++ [';'])))))) =
        ' ' :: quoteLabels ("TD".data ++
          ('\n' :: (id ++ '[' :: (lbl ++ ']' :: (w ++ [';']))))) :=
      quoteLabels_nonw_cons ' ' _ (by decide)
    have h3 : quoteLabels ("TD".data ++
          ('\n' :: (id ++ '[' :: (lbl ++ ']' :: (w ++ [';']))))) =
        "TD".data ++ quoteLabels
          ('\n' :: (id ++ '[' :: (lbl ++ ']' :: (w ++ [';'])))) :=
      quoteLabels_run_skip "TD".data '\n' _
        (by decide) (by decide) (by decide) (by decide)
    have h4 : quoteLabels
          ('\n' :: (id ++ '[' :: (lbl ++ ']' :: (w ++ [';'])))) =
        '\n' :: quoteLabels (id ++ '[' :: (lbl ++ ']' :: (w ++ [';']))) :=
      quoteLabels_nonw_cons '\n' _ (by decide)
    have h5 : quoteLabels (id ++ '[' :: (lbl ++ ']' :: (w ++ [';']))) =
        id ++ '[' :: '"' :: escQ lbl ++ '"' :: ']' ::
          quoteLabels (w ++ [';']) :=
      quoteLabels_match id lbl (w ++ [';']) '[' ']' hid hidw (by decide)
        (by decide) (fun x hx => ⟨(hlbl x hx).1, (hlbl x hx).2.1⟩)
    have h6 : quoteLabels (w ++ [';']) = w ++ [';'] := by
      refine quoteLabels_id_of_nonw (w ++ [';']) ?_
      intro x hx
      rcases List.mem_append.mp hx with h | h
      · exact ws_not_wc x (hwall x h)
      · have hx2 : x = ';' := by simpa using h
        rw [hx2]
        decide
    have h7 : escQ lbl = lbl :=
      escQ_id_of_noquote lbl (fun x hx => (hlbl x hx).2.2.2)
    rw [h1, h2, h3, h4, h5, h6, h7]
    simp [hdrCanon]
  have hs : stripSemis (hdrCanon ++ '\n' ::
        (id ++ '[' :: '"' :: (lbl ++ '"' :: ']' :: (w ++ [';'])))) =
      hdrCanon ++ '\n' :: (id ++ '[' :: '"' :: (lbl ++ '"' :: ']' :: w)) := by
    have hP1 : ';' ∉ hdrCanon ++ '\n' :: (id ++ ['[']) := by
      intro hm
      rcases List.mem_append.mp hm with h | h
      · revert h
        decide
      · rcases List.mem_cons.mp h with h | h
        · exact absurd h (by decide)
        · rcases List.mem_append.mp h with h | h
          · have h2 := hidw ';' h
            revert h2
            decide
          · revert h
            decide
    have h1 : stripSemis (hdrCanon ++ '\n' ::
          (id ++ '[' :: '"' :: (lbl ++ '"' :: ']' :: (w ++ [';'])))) =
        hdrCanon ++ '\n' :: (id ++ '[' ::
          stripSemis ('"' :: (lbl ++ '"' :: ']' :: (w ++ [';'])))) := by
      have h0 := stripSemis_skip (hdrCanon ++ '\n' :: (id ++ ['['])).length
        (hdrCanon ++ '\n' :: (id ++ ['['])) '"'
        (lbl ++ '"' :: ']' :: (w ++ [';'])) (Nat.le_refl _) hP1
        (by decide) (by decide)
      simpa using h0
    have hP2 : ';' ∉ '"' :: lbl := by
      intro hm
      rcases List.mem_cons.mp hm with h | h
      · exact absurd h (by decide)
      · exact (hlbl ';' h).2.2.1 rfl
    have h2 : stripSemis ('"' :: (lbl ++ '"' :: ']' :: (w ++ [';']))) =
        '"' :: (lbl ++ stripSemis ('"' :: (']' :: (w ++ [';'])))) := by
      have h0 := stripSemis_skip ('"' :: lbl).length ('"' :: lbl) '"'
        (']' :: (w ++ [';'])) (Nat.le_refl _) hP2 (by decide) (by decide)
      simpa using h0
    have h3 : stripSemis ('"' :: (']' :: (w ++ [';']))) =
        '"' :: stripSemis (']' :: (w ++ [';'])) := by
      rw [stripSemis_cons]
      rw [if_pos (by decide : isCloserQ '"' = true)]
      rw [List.dropWhile_cons_of_neg (by decide : ¬isWs ']' = true)]
      dsimp only
      rw [if_neg (by decide : ¬(']' = ';'))]
    have h4 : stripSemis (']' :: (w ++ [';'])) = ']' :: w := by
      rw [stripSemis_cons]
      rw [if_pos (by decide : isCloserQ ']' = true)]
      rw [dropWhile_append_all isWs w [';'] hwall]
      rw [show ([';'] : List Char).dropWhile isWs = [';'] from rfl]
      dsimp only
      rw [if_pos rfl]
      rw [takeWhile_append_all isWs w [';'] hwall]
      rw [show ([';'] : List Char).takeWhile isWs = ([] : List Char)
        from rfl]
      rw [show stripSemis ([] : List Char) = [] from rfl]
      simp
    rw [h1, h2, h3, h4]
  have hbodynl : '\n' ∉ id ++ '[' :: '"' :: (lbl ++ '"' :: ']' :: w) := by
    intro hm
    rcases List.mem_append.mp hm with h | h
    · have h2 := hidw '\n' h
      revert h2
      decide
    · rcases List.mem_cons.mp h with h | h
      · exact absurd h (by decide)
      · rcases List.mem_cons.mp h with h | h
        · exact absurd h (by decide)
        · rcases List.mem_append.mp h with h | h
          · exact (hlbl '\n' h).2.1 rfl
          · rcases List.mem_cons.mp h with h | h
            · exact absurd h (by decide)
            · rcases List.mem_cons.mp h with h | h
              · exact absurd h (by decide)
              · exact (hw '\n' h).2 rfl
  have hsplit2 : splitNl ('\n' ::
        (id ++ '[' :: '"' :: (lbl ++ '"' :: ']' :: w))) =
      [] :: [id ++ '[' :: '"' :: (lbl ++ '"' :: ']' :: w)] := by
    unfold splitNl
    rw [if_pos rfl, splitNl_noNl _ hbodynl]
  have hsplitNl : splitNl (hdrCanon ++ '\n' ::
        (id ++ '[' :: '"' :: (lbl ++ '"' :: ']' :: w))) =
      [hdrCanon, id ++ '[' :: '"' :: (lbl ++ '"' :: ']' :: w)] := by
    have h0 := splitNl_append_noNl hdrCanon
      ('\n' :: (id ++ '[' :: '"' :: (lbl ++ '"' :: ']' :: w)))
      [] [id ++ '[' :: '"' :: (lbl ++ '"' :: ']' :: w)] (by decide) hsplit2
    rw [List.append_nil] at h0
    exact h0
  have htrimbody : trimL (id ++ '[' :: '"' :: (lbl ++ '"' :: ']' :: w)) =
      id ++ '[' :: '"' :: (lbl ++ '"' :: [']']) := by
    cases id with
    | nil => exact absurd rfl hid
    | cons a id0 =>
      have haw : isWc a = true := hidw a (List.mem_cons_self a id0)
      show trimL (a ::
        (id0 ++ '[' :: '"' :: (lbl ++ '"' :: ']' :: w))) = _
      unfold trimL trimLeft
      rw [List.dropWhile_cons_of_neg (by rw [wc_not_ws a haw]; simp)]
      have hsh : a :: (id0 ++ '[' :: '"' :: (lbl ++ '"' :: ']' :: w)) =
          (a :: (id0 ++ '[' :: '"' :: (lbl ++ '"' :: [']']))) ++ w := by
        simp
      rw [hsh, trimRight_append_allws _ w hwall]
      refine trimRight_of_last _ ']'
        ((a :: (id0 ++ '[' :: '"' :: (lbl ++ ['"'])))).reverse ?_
        (by decide)
      rw [show a :: (id0 ++ '[' :: '"' :: (lbl ++ '"' :: [']'])) =
          (a :: (id0 ++ '[' :: '"' :: (lbl ++ ['"']))) ++ [']']
          from by simp,
        List.reverse_append]
      rfl
  have hsemiT : endsSemi (id ++ '[' :: '"' :: (lbl ++ '"' :: [']'])) =
      false := by
    unfold endsSemi
    rw [show id ++ '[' :: '"' :: (lbl ++ '"' :: [']']) =
        (id ++ '[' :: '"' :: (lbl ++ ['"'])) ++ [']'] from by simp,
      last_append_one]
    rfl
  have hsemiF : endsSemi (trimL
      (id ++ '[' :: '"' :: (lbl ++ '"' :: ']' :: w))) = false := by
    rw [htrimbody]
    exact hsemiT
  have hne2 : (id ++ '[' :: '"' :: (lbl ++ '"' :: [']'])).isEmpty =
      false := by
    cases id with
    | nil => exact absurd rfl hid
    | cons a id0 => rfl
  have hperc : startsPercPerc (id ++ '[' :: '"' :: (lbl ++ '"' :: [']'])) =
      false := by
    cases id with
    | nil => exact absurd rfl hid
    | cons a id0 =>
      have haw : isWc a = true := hidw a (List.mem_cons_self a id0)
      show startsPercPerc (a ::
        (id0 ++ '[' :: '"' :: (lbl ++ '"' :: [']']))) = false
      exact percperc_false_of_wc a _ haw
  have hstrict : isStrictNodeDef
      (id ++ '[' :: '"' :: (lbl ++ '"' :: [']'])) = true :=
    strict_of_quoted_decl id lbl hid hidw (fun x hx => (hlbl x hx).2.1)
  have hfix : fixLine false (id ++ '[' :: '"' :: (lbl ++ '"' :: ']' :: w)) =
      id ++ '[' :: '"' :: (lbl ++ '"' :: ']' :: w) := by
    unfold fixLine
    dsimp only
    rw [htrimbody]
    rw [if_neg (by rw [hne2, hperc, hsemiT]; simp)]
    rw [if_neg (by rw [hstrict]; simp)]
  have hterm : terminate (hdrCanon ++ '\n' ::
        (id ++ '[' :: '"' :: (lbl ++ '"' :: ']' :: w))) =
      hdrCanon ++ '\n' :: (id ++ '[' :: '"' :: (lbl ++ '"' :: ']' :: w)) := by
    unfold terminate
    rw [hsplitNl]
    dsimp only
    rw [fixLine_first]
    rw [show List.map (fixLine false)
        [id ++ '[' :: '"' :: (lbl ++ '"' :: ']' :: w)] =
      [fixLine false (id ++ '[' :: '"' :: (lbl ++ '"' :: ']' :: w))]
      from rfl]
    rw [hfix]
    rfl
  constructor
  · unfold cleanupFlowchart
    dsimp only
    rw [htrimI, hslf, hstf, htrimI]
    rw [if_pos (by rw [hhdr]; simp)]
    unfold normalizeBody
    rw [sanitizeIds_identity, hq, hs, hterm]
  · exact hsemiF

set_option maxRecDepth 100000 in
/-- C5 (counterexample): the quoted edge line produced from
`C[a] --> D[b]` lacks a trailing separator, yet the cleanup appends
none — after label quoting the line matches the strict-node-definition
regex, so the termination pass skips it; this refutes the claim that
every edge line lacking a trailing separator receives exactly one. -/
theorem C5_counterexample :
    cleanupFlowchart "flowchart TD\nC[a] --> D[b]".data =
      CleanResult.ok "flowchart TD\nC[\"a\"] --> D[\"b\"]".data ∧
    isLinkLine "C[\"a\"] --> D[\"b\"]".data = true ∧
    endsSemi "C[\"a\"] --> D[\"b\"]".data = false := by
  exact ⟨by decide, by decide, by decide⟩

/-- C5 (amended): separator discipline of the cleanup output. (a) For an
input made of the canonical header and one node-declaration line
`ID[label]` followed by optional non-newline whitespace and a statement
separator, the cleanup succeeds, the separator after the closing bracket
is removed, and the normalized declaration line does not end with a
separator. (b) Every non-first line of any successful cleanup output is
empty, a comment, free of edge tokens, separator-terminated, or matches
the strict-node-definition regex — edge lines in node-declaration shape
receive no separator. (c) A line already ending with a separator is
never given a second one. -/
theorem C5_separator_discipline (id lbl w raw d : List Char)
    (hid : id ≠ []) (hidw : ∀ c ∈ id, isWc c = true)
    (hlbl : ∀ c ∈ lbl, isCloseB c = false ∧ c ≠ '\n' ∧ c ≠ ';' ∧ c ≠ '"')
    (hw : ∀ c ∈ w, isWs c = true ∧ c ≠ '\n')
    (hok : cleanupFlowchart raw = CleanResult.ok d) :
    (cleanupFlowchart
        (hdrCanon ++ '\n' :: (id ++ '[' :: (lbl ++ ']' :: (w ++ [';'])))) =
      CleanResult.ok (hdrCanon ++ '\n' ::
        (id ++ '[' :: '"' :: (lbl ++ '"' :: ']' :: w))) ∧
     endsSemi (trimL (id ++ '[' :: '"' :: (lbl ++ '"' :: ']' :: w))) =
       false) ∧
    (∀ L ∈ (splitNl d).tail, goodLine L = true) ∧
    (∀ (b : Bool) (l : List Char), endsSemi (trimL l) = true →
      fixLine b l = l) := by
  refine ⟨cleanup_nodedecl id lbl w hid hidw hlbl hw, ?_, fixLine_semi_noop⟩
  obtain ⟨s, rfl⟩ := cleanup_ok_shape raw d hok
  exact terminate_lines_good s

set_option maxRecDepth 100000 in
/-- C5 (amended, witness): the lemma applied at the concrete declaration
line `A[x ];`, the concrete successful input `E --> F`, and the concrete
already-terminated lines `E --> F;` and `G --> H;`. -/
theorem C5_separator_discipline_witness :
    (cleanupFlowchart (hdrCanon ++ '\n' ::
        (['A'] ++ '[' :: (['x'] ++ ']' :: ([' '] ++ [';'])))) =
      CleanResult.ok (hdrCanon ++ '\n' ::
        (['A'] ++ '[' :: '"' :: (['x'] ++ '"' :: ']' :: [' ']))) ∧
     endsSemi (trimL (['A'] ++ '[' :: '"' ::
       (['x'] ++ '"' :: ']' :: [' ']))) = false) ∧
    goodLine "E --> F;".data = true ∧
    fixLine false "G --> H;".data = "G --> H;".data := by
  have h := C5_separator_discipline ['A'] ['x'] [' ']
    "E --> F".data "flowchart TD\nE --> F;".data
    (by decide) (by decide) (by decide) (by decide) (by decide)
  exact ⟨h.1, h.2.1 "E --> F;".data (by decide),
    h.2.2 false "G --> H;".data (by decide)⟩
end Studio
